import Mathlib

/-!
# Verification of the `ripstruct` segmented MPSC buffer (`src/seg_buffer/raw.rs`)

This file gives a shallow embedding of the raw segmented buffer:

* `Segment` models `Segment<T>`: a capacity, a write cursor (`front`), a read
  cursor (`back`), and the slot array.  A slot holds `Option T`: `none` models
  uninitialized memory (`MaybeUninit::uninit()`), `some v` a written value.
* `RawBuffer` models `RawBuffer<T>`.  Sequentially the chain of segments
  reachable from `tail` via the `next` pointers is a list (`segs`, whose first
  element is the tail segment) and the `head` pointer is an index into it
  (`headIdx`).  Appending a segment at the end of the chain models
  `append_segment` (whose CAS traversal, executed without interference,
  installs the new segment at the unique end of the chain).
* `pushLoop` / `popLoop` model the claim-and-write loop of `RawBuffer::push`
  and the claim-and-read loop of `RawBuffer::pop`, with explicit fuel for the
  source's `loop`; under the reachability invariant `Inv` small fuel values
  are proved sufficient, and the total wrappers `RawBuffer.push` /
  `RawBuffer.pop` use them.
* `RawIter` models the raw slice iterator; `Segment.dropDestructs` and
  `RawBuffer.dropDestructs` model which slots the `Drop` impls destruct.

Reading an uninitialized slot (undefined behaviour in the source) is modelled
by the slot's stored `Option`; the invariant proofs show reachable states
never read an uninitialized slot.
-/

namespace RipStruct

/-- Capacity of the first segment in the buffer (`STARTING_SIZE`). -/
def STARTING_SIZE : Nat := 64

/-- Max capacity of a segment in the buffer (`MAX_SIZE`). -/
def MAX_SIZE : Nat := 262144

/-- A segment in the buffer (`Segment<T>`).  The `next` pointer is not stored:
the chain order is the order of the buffer's segment list. -/
structure Segment (T : Type) where
  /-- Capacity of this segment. -/
  capacity : Nat
  /-- Index of the next value to write into this segment (`front`); may exceed
  `capacity` once the segment has been fully written. -/
  front : Nat
  /-- Index of the next value to read from this segment (`back`). -/
  back : Nat
  /-- The slot array, of length `capacity`; `none` is an uninitialized slot. -/
  array : List (Option T)
  deriving Repr, DecidableEq

/-- `new_segment`: a fresh segment of the given capacity, cursors at zero,
all slots uninitialized. -/
def new_segment (T : Type) (capacity : Nat) : Segment T :=
  ⟨capacity, 0, 0, List.replicate capacity none⟩

/-- The raw buffer (`RawBuffer<T>`).  `segs` is the chain of segments starting
at the tail (so `segs.head` is the segment `tail` points to, and list order is
`next`-pointer order); `headIdx` is the position of the segment the `head`
pointer points to. -/
structure RawBuffer (T : Type) where
  /-- The chain of segments from the tail, in `next`-pointer order. -/
  segs : List (Segment T)
  /-- Index (in `segs`) of the segment the `head` pointer points to. -/
  headIdx : Nat
  deriving Repr, DecidableEq

/-- `RawBuffer::new`: one fresh segment of capacity `STARTING_SIZE`; both
`head` and `tail` point at it. -/
def RawBuffer.new (T : Type) : RawBuffer T :=
  ⟨[new_segment T STARTING_SIZE], 0⟩

/-- The claim-and-write loop of `RawBuffer::push`, with explicit fuel for the
source's unbounded `loop`.  Each iteration loads the head segment, reserves an
index with `front.fetch_add(1)` (the increment happens even when the reserved
index is past capacity — such reservations are wasted by design), and either:
writes the value into the claimed slot (reserved index within capacity);
advances the head pointer to the existing successor (the sequential
`compare_and_swap` always succeeds); or allocates a new segment of capacity
`min(MAX_SIZE, capacity * 2)` and appends it at the end of the chain
(`append_segment`), then retries.  `none` means the fuel ran out. -/
def pushLoop {T : Type} : Nat → RawBuffer T → T → Option (RawBuffer T)
  | 0, _, _ => none
  | fuel + 1, b, value =>
    match b.segs[b.headIdx]? with
    | none => none
    | some head =>
      let position := head.front
      if position < head.capacity then
        some ⟨b.segs.set b.headIdx
                { head with
                  front := position + 1,
                  array := head.array.set position (some value) },
              b.headIdx⟩
      else
        let segs1 := b.segs.set b.headIdx { head with front := position + 1 }
        if b.headIdx + 1 < b.segs.length then
          pushLoop fuel ⟨segs1, b.headIdx + 1⟩ value
        else
          pushLoop fuel
            ⟨segs1 ++ [new_segment T (min MAX_SIZE (head.capacity * 2))],
             b.headIdx⟩ value

/-- `RawBuffer::push` as a total function: under the reachability invariant
the loop is proved to finish within 3 iterations (`pushLoop_spec`). -/
def RawBuffer.push {T : Type} (b : RawBuffer T) (value : T) : RawBuffer T :=
  (pushLoop 3 b value).getD b

/-- The claim-and-read loop of `RawBuffer::pop`, with explicit fuel.  Each
iteration reads the tail segment's cursors: if `back >= front` the segment has
no pending data — `back` is restored to `front` and the loop signals empty; if
`back >= capacity` the segment is fully drained — its cursors are reset to 0
and, if it is also the head segment, the loop signals empty, otherwise the
tail advances to the successor and the drained segment is detached and
re-appended at the end of the chain (`append_segment`), and the loop retries;
otherwise the slot at `back` is read and `back` incremented.  `none` means
the fuel ran out. -/
def popLoop {T : Type} : Nat → RawBuffer T → Option (Option T × RawBuffer T)
  | 0, _ => none
  | fuel + 1, b =>
    match b.segs with
    | [] => none
    | segment :: rest =>
      let index := segment.back
      if index ≥ segment.front then
        some (none, ⟨{ segment with back := segment.front } :: rest, b.headIdx⟩)
      else if index ≥ segment.capacity then
        let seg1 := { segment with back := 0, front := 0 }
        if b.headIdx = 0 then
          some (none, ⟨seg1 :: rest, b.headIdx⟩)
        else
          popLoop fuel ⟨rest ++ [seg1], b.headIdx - 1⟩
      else
        some (segment.array.getD index none,
              ⟨{ segment with back := index + 1 } :: rest, b.headIdx⟩)

/-- `RawBuffer::pop` as a total function: under the reachability invariant the
loop is proved to finish within `segs.length + 1` iterations. -/
def RawBuffer.pop {T : Type} (b : RawBuffer T) : Option T × RawBuffer T :=
  (popLoop (b.segs.length + 1) b).getD (none, b)

/-- The slice the raw iterator yields for one segment:
`array[min(back, capacity) .. min(front, capacity)]` (`RawIter::next`). -/
def segSlice {T : Type} (s : Segment T) : List (Option T) :=
  (s.array.take (min s.front s.capacity)).drop (min s.back s.capacity)

/-- The raw iterator (`RawIter`): its `segment` pointer, i.e. the suffix of
the chain that has not been yielded yet. -/
structure RawIter (T : Type) where
  /-- Chain suffix starting at the iterator's current segment pointer. -/
  segment : List (Segment T)
  deriving Repr, DecidableEq

/-- `RawBuffer::iter`: an iterator whose segment pointer is the tail. -/
def RawBuffer.iter {T : Type} (b : RawBuffer T) : RawIter T :=
  ⟨b.segs⟩

/-- `RawIter::next`: `None` when the segment pointer is null; otherwise yield
the current segment's clamped unread slice and advance to `next`. -/
def RawIter.next {T : Type} : RawIter T → Option (List (Option T) × RawIter T)
  | ⟨[]⟩ => none
  | ⟨s :: rest⟩ => some (segSlice s, ⟨rest⟩)

/-- Helper for exhausting the iterator, structurally recursive on the
remaining chain suffix. -/
def iterToListAux {T : Type} : List (Segment T) → List (List (Option T))
  | [] => []
  | s :: rest => segSlice s :: iterToListAux rest

/-- Exhaust the iterator: the full (finite, single-pass) sequence of slices
obtained by calling `RawIter.next` until it returns `none`. -/
def iterToList {T : Type} (it : RawIter T) : List (List (Option T)) :=
  iterToListAux it.segment

/-- The slots `Segment`'s `Drop` impl destructs: indices in
`[min(capacity, back), min(capacity, front))`. -/
def Segment.dropDestructs {T : Type} (s : Segment T) : List (Option T) :=
  (s.array.take (min s.capacity s.front)).drop (min s.capacity s.back)

/-- The slots `RawBuffer`'s `Drop` impl destructs: it walks the chain from the
tail via the `next` pointers, dropping each segment in turn. -/
def RawBuffer.dropDestructs {T : Type} (b : RawBuffer T) : List (Option T) :=
  (b.segs.map Segment.dropDestructs).flatten

/-- The unread region of a segment, `array[back .. min(front, capacity))`,
i.e. the values written but not yet read. -/
def Segment.unread {T : Type} (s : Segment T) : List (Option T) :=
  (s.array.take (min s.front s.capacity)).drop s.back

/-- Abstraction function: the queue contents, in FIFO order — the
concatenation of every segment's unread region in chain order. -/
def RawBuffer.abs {T : Type} (b : RawBuffer T) : List (Option T) :=
  (b.segs.map Segment.unread).flatten

/-- Per-segment part of the reachability invariant. -/
def SegInv {T : Type} (s : Segment T) : Prop :=
  s.array.length = s.capacity ∧
  1 ≤ s.capacity ∧
  s.back ≤ s.front ∧
  s.back ≤ s.capacity ∧
  ∀ i, i < s.capacity → s.back ≤ i → i < s.front →
    (s.array.getD i none).isSome

instance {T : Type} [DecidableEq T] (s : Segment T) : Decidable (SegInv s) := by
  unfold SegInv; infer_instance

/-- The reachability invariant of a buffer: the head index is in range, every
segment is internally consistent, every segment strictly before the head is
over-full (its write cursor passed capacity, strictly — the head pointer only
moves off a segment after a wasted over-capacity reservation), every segment
strictly after the head is untouched, and only the tail segment may have a
nonzero read cursor. -/
def Inv {T : Type} (b : RawBuffer T) : Prop :=
  b.headIdx < b.segs.length ∧
  ∀ i, (h : i < b.segs.length) →
    SegInv b.segs[i] ∧
    (i < b.headIdx → b.segs[i].capacity < b.segs[i].front) ∧
    (b.headIdx < i → b.segs[i].front = 0 ∧ b.segs[i].back = 0) ∧
    (0 < i → b.segs[i].back = 0)

instance {T : Type} [DecidableEq T] (b : RawBuffer T) : Decidable (Inv b) := by
  unfold Inv; infer_instance

/-- Push each value of the list in order (left to right). -/
def pushN {T : Type} (vs : List T) (b : RawBuffer T) : RawBuffer T :=
  vs.foldl RawBuffer.push b

/-- Pop `n` times, collecting the results in order. -/
def popN {T : Type} : Nat → RawBuffer T → List (Option T) × RawBuffer T
  | 0, b => ([], b)
  | n + 1, b =>
    let r := b.pop
    let rest := popN n r.2
    (r.1 :: rest.1, rest.2)

/-- The buffer states reachable from `RawBuffer::new` by a sequential history
of `push` and `pop` calls. -/
inductive Reachable {T : Type} : RawBuffer T → Prop
  | new : Reachable (RawBuffer.new T)
  | push {b : RawBuffer T} (v : T) : Reachable b → Reachable (b.push v)
  | pop {b : RawBuffer T} : Reachable b → Reachable b.pop.2

/-- Capacity of the segment the head pointer points to (total version; for a
buffer with its head index in range it is that segment's capacity). -/
def RawBuffer.headCapacity {T : Type} (b : RawBuffer T) : Nat :=
  (b.segs.getD b.headIdx (new_segment T 0)).capacity

/-- The slice sequence described by the spec sentence "walks the segment
chain from tail to head, yielding one contiguous slice of unread elements per
segment": one slice per segment from the tail segment up to and including the
head segment only. -/
def iterSlicesToHead {T : Type} (b : RawBuffer T) : List (List (Option T)) :=
  (b.segs.take (b.headIdx + 1)).map segSlice

/-! ## Concurrent-producer model

`RawBuffer::push` may run concurrently with other `push` calls (and only with
them).  The interleaved model below gives each producer thread a program
counter with one state per atomic operation of the source loop — the
`Acquire` load of `head`, the `AcqRel` `fetch_add` on `front`, the `Acquire`
load of `next`, the `compare_and_swap` on `head`, the allocation plus
`append_segment` (whose CAS loop, they being the only writers of `next`
pointers, always installs the fresh segment at the unique end of the chain in
one successful CAS), and the plain `ptr::write` into the exclusively owned
claimed slot.  A scheduler script chooses which thread performs the next
atomic step. -/

/-- Program counter of a producer thread inside `push`. -/
inductive PPhase where
  /-- About to (re-)execute the top of the loop: the load of `head`. -/
  | idle
  /-- Loaded the head pointer (chain position `h`); next: `fetch_add`. -/
  | loadedHead (h : Nat)
  /-- Reserved index `pos < capacity` in segment `h`; next: the plain write. -/
  | claimed (h pos : Nat)
  /-- Reserved index was past capacity (reservation wasted); next: load of
  segment `h`'s `next` pointer. -/
  | fullSeen (h : Nat)
  /-- Observed a non-null `next`; next: `compare_and_swap` of `head`. -/
  | gotNext (h : Nat)
  /-- Observed a null `next`; next: allocate and `append_segment`. -/
  | sawNull (h : Nat)
  deriving Repr, DecidableEq

/-- A producer thread: its program counter and the values it has not yet
finished pushing (the first one is the value currently being pushed). -/
structure PThread (T : Type) where
  /-- The thread's program counter. -/
  phase : PPhase
  /-- Values not yet written, in push order. -/
  pending : List T
  deriving Repr, DecidableEq

/-- One atomic step of a single producer thread against the shared buffer.
`none` means the thread has no step (it is done, or the state is corrupt). -/
def tstep {T : Type} (buf : RawBuffer T) (t : PThread T) :
    Option (RawBuffer T × PThread T) :=
  match t.phase, t.pending with
  | .idle, [] => none
  | .idle, _ :: _ => some (buf, { t with phase := .loadedHead buf.headIdx })
  | .loadedHead h, _ =>
    match buf.segs[h]? with
    | none => none
    | some seg =>
      let position := seg.front
      if position < seg.capacity then
        some (⟨buf.segs.set h { seg with front := position + 1 }, buf.headIdx⟩,
          { t with phase := .claimed h position })
      else
        some (⟨buf.segs.set h { seg with front := position + 1 }, buf.headIdx⟩,
          { t with phase := .fullSeen h })
  | .claimed _ _, [] => none
  | .claimed h pos, v :: rest =>
    match buf.segs[h]? with
    | none => none
    | some seg =>
      some (⟨buf.segs.set h { seg with array := seg.array.set pos (some v) },
          buf.headIdx⟩,
        ⟨.idle, rest⟩)
  | .fullSeen h, _ =>
    if h + 1 < buf.segs.length then
      some (buf, { t with phase := .gotNext h })
    else
      some (buf, { t with phase := .sawNull h })
  | .gotNext h, _ =>
    if buf.headIdx = h then
      some (⟨buf.segs, h + 1⟩, { t with phase := .idle })
    else
      some (buf, { t with phase := .idle })
  | .sawNull h, _ =>
    match buf.segs[h]? with
    | none => none
    | some seg =>
      some (⟨buf.segs ++ [new_segment T (min MAX_SIZE (seg.capacity * 2))],
          buf.headIdx⟩,
        { t with phase := .idle })

/-- Global state of the producers-only phase: the shared buffer and every
producer thread. -/
structure CState (T : Type) where
  /-- The shared buffer. -/
  buf : RawBuffer T
  /-- The producer threads. -/
  threads : List (PThread T)
  deriving Repr, DecidableEq

/-- Let thread `i` perform its next atomic step. -/
def cstep {T : Type} (s : CState T) (i : Nat) : Option (CState T) :=
  match s.threads[i]? with
  | none => none
  | some t =>
    match tstep s.buf t with
    | none => none
    | some (buf1, t1) => some ⟨buf1, s.threads.set i t1⟩

/-- Run a scheduler script (a sequence of thread indices), one atomic step
per entry. -/
def runScript {T : Type} : CState T → List Nat → Option (CState T)
  | s, [] => some s
  | s, i :: is =>
    match cstep s i with
    | none => none
    | some s1 => runScript s1 is

/-- Initial state: a fresh buffer, and one thread per value list, each about
to push its values in order. -/
def cinit {T : Type} (vss : List (List T)) : CState T :=
  ⟨RawBuffer.new T, vss.map fun vs => ⟨.idle, vs⟩⟩

/-- Every thread has returned from all its `push` calls. -/
def AllDone {T : Type} (s : CState T) : Prop :=
  ∀ t ∈ s.threads, t.phase = PPhase.idle ∧ t.pending = []

instance {T : Type} [DecidableEq T] (s : CState T) : Decidable (AllDone s) := by
  unfold AllDone; infer_instance

/-- Per-thread invariant of the concurrent-producer protocol, by program
counter.  A thread's loaded head position is a valid chain position at or
before the current head; a claim `(h, pos)` is an in-capacity reservation
below the segment's write cursor whose slot is still unwritten; a thread that
saw its segment full knows that segment's write cursor passed its capacity;
a thread that saw a successor knows one exists. -/
def ThreadInv {T : Type} (buf : RawBuffer T) (t : PThread T) : Prop :=
  match t.phase with
  | .idle => True
  | .loadedHead h => h < buf.segs.length ∧ h ≤ buf.headIdx ∧ t.pending ≠ []
  | .claimed h pos =>
      ∃ _ : h < buf.segs.length,
        h ≤ buf.headIdx ∧ pos < buf.segs[h].capacity ∧ pos < buf.segs[h].front ∧
        buf.segs[h].array.getD pos none = none ∧ t.pending ≠ []
  | .fullSeen h =>
      ∃ _ : h < buf.segs.length,
        h ≤ buf.headIdx ∧ buf.segs[h].capacity < buf.segs[h].front ∧ t.pending ≠ []
  | .gotNext h =>
      ∃ _ : h < buf.segs.length,
        h ≤ buf.headIdx ∧ buf.segs[h].capacity < buf.segs[h].front ∧
        h + 1 < buf.segs.length ∧ t.pending ≠ []
  | .sawNull h =>
      ∃ _ : h < buf.segs.length,
        h ≤ buf.headIdx ∧ buf.segs[h].capacity < buf.segs[h].front ∧ t.pending ≠ []

/-- Mutual exclusion over reserved indices: no two threads hold the same
claim. -/
def TDisj {T : Type} (threads : List (PThread T)) : Prop :=
  ∀ j1 j2, (h1 : j1 < threads.length) → (h2 : j2 < threads.length) →
    j1 ≠ j2 → ∀ h p, threads[j1].phase = PPhase.claimed h p →
    threads[j2].phase ≠ PPhase.claimed h p

/-- Global invariant of the concurrent-producer protocol.  `M` is the
multiset of all values the producers were given to push. -/
structure CInv {T : Type} (M : Multiset T) (s : CState T) : Prop where
  /-- The head index is a valid chain position. -/
  blen : s.buf.headIdx < s.buf.segs.length
  /-- Every segment's array has its capacity's length, capacities are
  positive, and no read cursor has moved (producers never touch `back`). -/
  bseg : ∀ i, (hi : i < s.buf.segs.length) →
    s.buf.segs[i].array.length = s.buf.segs[i].capacity ∧
    1 ≤ s.buf.segs[i].capacity ∧ s.buf.segs[i].back = 0
  /-- Segments strictly before the head are over-full. -/
  bfull : ∀ i, (hi : i < s.buf.segs.length) → i < s.buf.headIdx →
    s.buf.segs[i].capacity < s.buf.segs[i].front
  /-- Segments strictly after the head are still unreserved. -/
  bafter : ∀ i, (hi : i < s.buf.segs.length) → s.buf.headIdx < i →
    s.buf.segs[i].front = 0
  /-- Slots at or past the write cursor are unwritten. -/
  bnone : ∀ i, (hi : i < s.buf.segs.length) → ∀ p, s.buf.segs[i].front ≤ p →
    p < s.buf.segs[i].capacity → s.buf.segs[i].array.getD p none = none
  /-- Every thread satisfies its per-thread invariant. -/
  tinv : ∀ j, (hj : j < s.threads.length) → ThreadInv s.buf s.threads[j]
  /-- No two threads hold the same claim (mutual exclusion over reserved
  indices). -/
  tdisj : TDisj s.threads
  /-- Every reserved in-capacity slot is either already written or claimed by
  exactly one in-flight thread. -/
  bcover : ∀ i, (hi : i < s.buf.segs.length) → ∀ p,
    p < min s.buf.segs[i].front s.buf.segs[i].capacity →
    (s.buf.segs[i].array.getD p none).isSome = true ∨
    ∃ j, ∃ _ : j < s.threads.length, s.threads[j].phase = PPhase.claimed i p
  /-- Accounting: the values already written into the buffer plus the values
  still pending in the threads are exactly the initial values. -/
  acc : (s.buf.abs.reduceOption : Multiset T)
      + (s.threads.map fun t => (t.pending : Multiset T)).sum = M

/-! ## List helpers -/

theorem list_set_self {α : Type _} (l : List α) (i : Nat) (h : i < l.length) :
    l.set i l[i] = l := by
  apply List.ext_getElem?
  intro n
  simp only [List.getElem?_set]
  split
  · next hh => subst hh; simp [List.getElem?_eq_getElem h]
  · rfl

theorem list_split_at {α : Type _} (l : List α) (i : Nat) (h : i < l.length) :
    l = l.take i ++ l[i] :: l.drop (i + 1) := by
  conv_lhs => rw [← list_set_self l i h]
  exact List.set_eq_take_cons_drop _ h

/-! ## Segment-level lemmas -/

theorem Segment.unread_getElem? {T : Type} (s : Segment T) (i : Nat) :
    s.unread[i]? =
      if s.back + i < min s.front s.capacity then s.array[s.back + i]? else none := by
  unfold Segment.unread
  rw [List.getElem?_drop, List.getElem?_take]

theorem Segment.length_unread {T : Type} (s : Segment T)
    (hlen : s.array.length = s.capacity) :
    s.unread.length = min s.front s.capacity - s.back := by
  unfold Segment.unread
  simp [hlen, Nat.min_assoc]

/-- A segment whose read cursor has caught up with the clamped write cursor
has an empty unread region. -/
theorem Segment.unread_eq_nil {T : Type} (s : Segment T)
    (h : min s.front s.capacity ≤ s.back) : s.unread = [] := by
  unfold Segment.unread
  apply List.drop_eq_nil_of_le
  simp
  omega

/-- An untouched segment (write cursor zero) has an empty unread region. -/
theorem Segment.unread_of_front_zero {T : Type} (s : Segment T)
    (h : s.front = 0) : s.unread = [] :=
  s.unread_eq_nil (by omega)

/-- Bumping the write cursor of an already-full segment does not change its
unread region (the clamp `min front capacity` is stable). -/
theorem Segment.unread_front_bump {T : Type} (s : Segment T)
    (h : s.capacity ≤ s.front) :
    Segment.unread { s with front := s.front + 1 } = s.unread := by
  unfold Segment.unread
  simp only
  congr 1
  congr 1
  omega

/-- Writing a value at the write cursor of a non-full segment appends exactly
that value to the unread region. -/
theorem Segment.unread_write {T : Type} (s : Segment T) (v : T)
    (hlen : s.array.length = s.capacity)
    (hbf : s.back ≤ s.front) (hfc : s.front < s.capacity) :
    Segment.unread
        { s with front := s.front + 1, array := s.array.set s.front (some v) }
      = s.unread ++ [some v] := by
  apply List.ext_getElem?
  intro n
  rw [Segment.unread_getElem?]
  simp only [List.getElem?_append, Segment.length_unread s hlen,
    Segment.unread_getElem?]
  have hmin : min s.front s.capacity = s.front := by omega
  have hmin' : min (s.front + 1) s.capacity = s.front + 1 := by omega
  rw [hmin']
  by_cases h1 : s.back + n < s.front
  · have h2 : n < min s.front s.capacity - s.back := by omega
    simp only [if_pos (by omega : s.back + n < s.front + 1), if_pos h2,
      List.getElem?_set]
    rw [if_neg (by omega), if_pos (show s.back + n < min s.front s.capacity by omega)]
  · by_cases h3 : s.back + n = s.front
    · simp only [if_pos (by omega : s.back + n < s.front + 1),
        if_neg (by omega : ¬ n < min s.front s.capacity - s.back),
        List.getElem?_set, if_pos h3.symm, if_pos (by omega : s.front < s.array.length)]
      have : n - (min s.front s.capacity - s.back) = 0 := by omega
      rw [this]
      rfl
    · simp only [if_neg (by omega : ¬ s.back + n < s.front + 1),
        if_neg (by omega : ¬ n < min s.front s.capacity - s.back)]
      have : 1 ≤ n - (min s.front s.capacity - s.back) := by omega
      rw [List.getElem?_eq_none (by simpa using this)]

/-- The head of a nonempty unread region is the slot at the read cursor. -/
theorem Segment.head?_unread {T : Type} (s : Segment T)
    (h : s.back < min s.front s.capacity) :
    s.unread.head? = s.array[s.back]? := by
  unfold Segment.unread
  rw [List.head?_drop, List.getElem?_take, if_pos h]

/-- Dropping the first unread element corresponds to advancing `back`. -/
theorem Segment.tail_unread {T : Type} (s : Segment T) :
    Segment.unread { s with back := s.back + 1 } = s.unread.tail := by
  unfold Segment.unread
  simp only [List.tail_drop]

/-- A fresh segment has an empty unread region. -/
theorem Segment.unread_new_segment {T : Type} (c : Nat) :
    (new_segment T c).unread = [] :=
  Segment.unread_of_front_zero _ rfl

/-- Under `SegInv`, the slots the `Drop` impl destructs are exactly the
unread region. -/
theorem Segment.dropDestructs_eq_unread {T : Type} (s : Segment T)
    (hinv : SegInv s) : s.dropDestructs = s.unread := by
  obtain ⟨hlen, hcap, hbf, hbc, _⟩ := hinv
  unfold Segment.dropDestructs Segment.unread
  rw [Nat.min_comm s.capacity s.front, Nat.min_eq_right hbc]

/-! ## Abstraction-function lemmas -/

theorem RawBuffer.abs_mk {T : Type} (segs : List (Segment T)) (k k' : Nat) :
    RawBuffer.abs ⟨segs, k⟩ = RawBuffer.abs ⟨segs, k'⟩ := rfl

theorem RawBuffer.abs_cons {T : Type} (s : Segment T) (rest : List (Segment T))
    (k k' : Nat) :
    RawBuffer.abs ⟨s :: rest, k⟩ = s.unread ++ RawBuffer.abs ⟨rest, k'⟩ := by
  simp [RawBuffer.abs]

theorem RawBuffer.abs_append {T : Type} (l1 l2 : List (Segment T)) (k k1 k2 : Nat) :
    RawBuffer.abs ⟨l1 ++ l2, k⟩ = RawBuffer.abs ⟨l1, k1⟩ ++ RawBuffer.abs ⟨l2, k2⟩ := by
  simp [RawBuffer.abs]

theorem RawBuffer.abs_nil_of_front_zero {T : Type} (segs : List (Segment T)) (k : Nat)
    (h : ∀ i, (hi : i < segs.length) → segs[i].front = 0) :
    RawBuffer.abs ⟨segs, k⟩ = [] := by
  unfold RawBuffer.abs
  rw [List.flatten_eq_nil_iff]
  intro l hl
  rw [List.mem_iff_getElem] at hl
  obtain ⟨n, hn, rfl⟩ := hl
  rw [List.getElem_map]
  exact Segment.unread_of_front_zero _ (h n (by simpa using hn))

/-- Split the abstraction at an index. -/
theorem RawBuffer.abs_split {T : Type} (segs : List (Segment T)) (k : Nat) (i : Nat)
    (h : i < segs.length) :
    RawBuffer.abs ⟨segs, k⟩ =
      RawBuffer.abs ⟨segs.take i, 0⟩ ++ segs[i].unread
        ++ RawBuffer.abs ⟨segs.drop (i + 1), 0⟩ := by
  conv_lhs => rw [list_split_at segs i h]
  rw [RawBuffer.abs_append _ _ _ 0 0, RawBuffer.abs_cons _ _ _ 0, List.append_assoc]

/-- The abstraction after replacing the segment at an index. -/
theorem RawBuffer.abs_set {T : Type} (segs : List (Segment T)) (k : Nat) (i : Nat)
    (h : i < segs.length) (s' : Segment T) :
    RawBuffer.abs ⟨segs.set i s', k⟩ =
      RawBuffer.abs ⟨segs.take i, 0⟩ ++ s'.unread
        ++ RawBuffer.abs ⟨segs.drop (i + 1), 0⟩ := by
  rw [List.set_eq_take_cons_drop _ h, RawBuffer.abs_append _ _ _ 0 0,
    RawBuffer.abs_cons _ _ _ 0, List.append_assoc]

/-! ## Invariant accessors and basic facts -/

theorem Inv.headIdx_lt {T : Type} {b : RawBuffer T} (h : Inv b) :
    b.headIdx < b.segs.length := h.1

theorem Inv.segInv {T : Type} {b : RawBuffer T} (h : Inv b) (i : Nat)
    (hi : i < b.segs.length) : SegInv b.segs[i] := (h.2 i hi).1

theorem Inv.full_before {T : Type} {b : RawBuffer T} (h : Inv b) (i : Nat)
    (hi : i < b.segs.length) (hlt : i < b.headIdx) :
    b.segs[i].capacity < b.segs[i].front := (h.2 i hi).2.1 hlt

theorem Inv.zero_after {T : Type} {b : RawBuffer T} (h : Inv b) (i : Nat)
    (hi : i < b.segs.length) (hgt : b.headIdx < i) :
    b.segs[i].front = 0 ∧ b.segs[i].back = 0 := (h.2 i hi).2.2.1 hgt

theorem Inv.back_zero {T : Type} {b : RawBuffer T} (h : Inv b) (i : Nat)
    (hi : i < b.segs.length) (hpos : 0 < i) :
    b.segs[i].back = 0 := (h.2 i hi).2.2.2 hpos

/-- The segments strictly past the head contribute nothing to the queue
contents. -/
theorem RawBuffer.abs_after_head {T : Type} {b : RawBuffer T} (h : Inv b) :
    RawBuffer.abs ⟨b.segs.drop (b.headIdx + 1), 0⟩ = [] := by
  apply RawBuffer.abs_nil_of_front_zero
  intro i hi
  rw [List.getElem_drop]
  exact (h.zero_after _ (by simp at hi; omega) (by omega)).1

theorem SegInv_new_segment {T : Type} (c : Nat) (hc : 1 ≤ c) :
    SegInv (new_segment T c) := by
  refine ⟨by simp [new_segment], hc, Nat.le_refl _, Nat.zero_le _, ?_⟩
  intro i _ _ h
  simp [new_segment] at h

theorem Inv_new (T : Type) : Inv (RawBuffer.new T) := by
  refine ⟨by simp [RawBuffer.new], ?_⟩
  intro i hi
  simp [RawBuffer.new] at hi
  subst hi
  refine ⟨SegInv_new_segment _ (by norm_num [STARTING_SIZE]), ?_, ?_, ?_⟩ <;>
    simp [RawBuffer.new]

theorem RawBuffer.abs_new (T : Type) : (RawBuffer.new T).abs = [] := by
  simp [RawBuffer.abs, RawBuffer.new, Segment.unread_new_segment]

/-- Split form of `RawBuffer.abs_split` for a buffer given as itself. -/
theorem RawBuffer.abs_split' {T : Type} (b : RawBuffer T) (i : Nat)
    (h : i < b.segs.length) :
    b.abs = RawBuffer.abs ⟨b.segs.take i, 0⟩ ++ b.segs[i].unread
      ++ RawBuffer.abs ⟨b.segs.drop (i + 1), 0⟩ :=
  RawBuffer.abs_split b.segs b.headIdx i h

/-- Map-of-capacities is unchanged by replacing a segment with one of equal
capacity. -/
theorem caps_set_eq {T : Type} (segs : List (Segment T)) (i : Nat)
    (h : i < segs.length) (s' : Segment T) (hc : s'.capacity = segs[i].capacity) :
    (segs.set i s').map Segment.capacity = segs.map Segment.capacity := by
  rw [List.map_set, hc]
  have hml : i < (segs.map Segment.capacity).length := by simpa
  rw [show Segment.capacity segs[i] = (segs.map Segment.capacity)[i] from
    (List.getElem_map _).symm]
  exact list_set_self _ _ (by simpa)

/-! ## Producer path: the three cases of one `push` loop iteration -/

/-- Successful-write iteration: the reserved index is within capacity, so the
value is written into the claimed slot and the loop breaks. -/
theorem pushLoop_write {T : Type} (fuel : Nat) (b : RawBuffer T) (v : T)
    (hh : b.headIdx < b.segs.length)
    (hfc : b.segs[b.headIdx].front < b.segs[b.headIdx].capacity) :
    pushLoop (fuel + 1) b v = some ⟨b.segs.set b.headIdx
      { b.segs[b.headIdx] with
        front := b.segs[b.headIdx].front + 1,
        array := (b.segs[b.headIdx]).array.set (b.segs[b.headIdx]).front (some v) },
      b.headIdx⟩ := by
  conv_lhs => rw [pushLoop]
  rw [List.getElem?_eq_getElem hh]
  simp [hfc]

/-- Full specification of the successful-write iteration. -/
theorem pushLoop_write_spec {T : Type} (fuel : Nat) (b : RawBuffer T) (v : T)
    (hInv : Inv b) (hh : b.headIdx < b.segs.length)
    (hfc : b.segs[b.headIdx].front < b.segs[b.headIdx].capacity) :
    ∃ b', pushLoop (fuel + 1) b v = some b' ∧ Inv b' ∧
      b'.abs = b.abs ++ [some v] ∧
      b'.segs.map Segment.capacity = b.segs.map Segment.capacity ∧
      b'.headIdx = b.headIdx := by
  obtain ⟨hlen, hcap, hbf, hbc, hslots⟩ := hInv.segInv b.headIdx hh
  refine ⟨_, pushLoop_write fuel b v hh hfc, ⟨?_, ?_⟩, ?_, ?_, rfl⟩
  · simpa using hh
  · intro i hi
    dsimp only at hi ⊢
    rw [List.length_set] at hi
    refine ⟨?_, ?_, ?_, ?_⟩
    · rw [List.getElem_set]
      split
      · next hki =>
        subst hki
        refine ⟨by dsimp only; simpa using hlen, hcap, by dsimp only; omega,
          by dsimp only; omega, ?_⟩
        intro j hj1 hj2 hj3
        dsimp only at hj1 hj2 hj3 ⊢
        simp only [List.getD_eq_getElem?_getD, List.getElem?_set]
        rcases eq_or_ne (b.segs[b.headIdx].front) j with hfj | hfj
        · rw [if_pos hfj, if_pos (by omega)]
          rfl
        · rw [if_neg hfj]
          have := hslots j hj1 hj2 (by omega)
          rwa [List.getD_eq_getElem?_getD] at this
      · exact hInv.segInv i hi
    · intro hlt
      rw [List.getElem_set]
      split
      · next hki => omega
      · exact hInv.full_before i hi hlt
    · intro hgt
      rw [List.getElem_set]
      split
      · next hki => omega
      · exact hInv.zero_after i hi hgt
    · intro hpos
      rw [List.getElem_set]
      split
      · next hki =>
        subst hki
        dsimp only
        exact hInv.back_zero b.headIdx hh hpos
      · exact hInv.back_zero i hi hpos
  · rw [RawBuffer.abs_set _ _ _ hh,
      Segment.unread_write _ v hlen hbf hfc,
      RawBuffer.abs_split' b b.headIdx hh,
      RawBuffer.abs_after_head hInv]
    simp
  · exact caps_set_eq _ _ hh _ rfl

/-- Head-advance iteration: the reserved index is past capacity, a successor
segment exists, and the head pointer is compare-and-swapped to it (the
reservation wasted); the loop retries on the advanced buffer. -/
theorem pushLoop_advance {T : Type} (fuel : Nat) (b : RawBuffer T) (v : T)
    (hh : b.headIdx < b.segs.length)
    (hfull : b.segs[b.headIdx].capacity ≤ b.segs[b.headIdx].front)
    (hnext : b.headIdx + 1 < b.segs.length) :
    pushLoop (fuel + 1) b v =
      pushLoop fuel
        ⟨b.segs.set b.headIdx
          { b.segs[b.headIdx] with front := b.segs[b.headIdx].front + 1 },
         b.headIdx + 1⟩ v := by
  conv_lhs => rw [pushLoop]
  rw [List.getElem?_eq_getElem hh]
  simp only [if_neg (by omega : ¬ b.segs[b.headIdx].front
    < b.segs[b.headIdx].capacity), if_pos hnext]

/-- Full specification of the head-advance iteration: it changes neither the
queue contents nor the capacities, and lands on a head segment that is
untouched (write cursor zero). -/
theorem pushLoop_advance_spec {T : Type} (fuel : Nat) (b : RawBuffer T) (v : T)
    (hInv : Inv b) (hh : b.headIdx < b.segs.length)
    (hfull : b.segs[b.headIdx].capacity ≤ b.segs[b.headIdx].front)
    (hnext : b.headIdx + 1 < b.segs.length) :
    ∃ b1, pushLoop (fuel + 1) b v = pushLoop fuel b1 v ∧ Inv b1 ∧
      b1.abs = b.abs ∧
      b1.segs.map Segment.capacity = b.segs.map Segment.capacity ∧
      b1.headIdx = b.headIdx + 1 ∧ b1.headIdx < b1.segs.length ∧
      b1.segs[b1.headIdx]? = some b.segs[b.headIdx + 1] ∧
      b.segs[b.headIdx + 1].front = 0 := by
  obtain ⟨hlen, hcap, hbf, hbc, hslots⟩ := hInv.segInv b.headIdx hh
  have hzero := hInv.zero_after (b.headIdx + 1) hnext (by omega)
  refine ⟨_, pushLoop_advance fuel b v hh hfull hnext, ⟨?_, ?_⟩, ?_, ?_, rfl, ?_, ?_, ?_⟩
  · simpa using hnext
  · intro i hi
    dsimp only at hi ⊢
    rw [List.length_set] at hi
    refine ⟨?_, ?_, ?_, ?_⟩
    · rw [List.getElem_set]
      split
      · next hki =>
        subst hki
        refine ⟨by dsimp only; simpa using hlen, hcap, by dsimp only; omega,
          by dsimp only; omega, ?_⟩
        intro j hj1 hj2 hj3
        dsimp only at hj1 hj2 hj3 ⊢
        exact hslots j hj1 hj2 (by omega)
      · exact hInv.segInv i hi
    · intro hlt
      rw [List.getElem_set]
      split
      · next hki =>
        subst hki
        dsimp only
        omega
      · exact hInv.full_before i hi (by omega)
    · intro hgt
      rw [List.getElem_set]
      split
      · next hki => omega
      · exact hInv.zero_after i hi (by omega)
    · intro hpos
      rw [List.getElem_set]
      split
      · next hki =>
        subst hki
        dsimp only
        exact hInv.back_zero b.headIdx hh hpos
      · exact hInv.back_zero i hi hpos
  · dsimp only
    rw [RawBuffer.abs_set _ _ _ hh,
      Segment.unread_front_bump _ hfull,
      RawBuffer.abs_split' b b.headIdx hh]
  · exact caps_set_eq _ _ hh _ rfl
  · simpa using hnext
  · dsimp only
    rw [List.getElem?_set, if_neg (by omega), List.getElem?_eq_getElem hnext]
  · exact hzero.1

/-- Allocation iteration: the reserved index is past capacity and no successor
exists, so a new segment of capacity `min(MAX_SIZE, capacity * 2)` is
allocated and appended at the end of the chain; the loop retries. -/
theorem pushLoop_alloc {T : Type} (fuel : Nat) (b : RawBuffer T) (v : T)
    (hh : b.headIdx < b.segs.length)
    (hfull : b.segs[b.headIdx].capacity ≤ b.segs[b.headIdx].front)
    (hlast : ¬ b.headIdx + 1 < b.segs.length) :
    pushLoop (fuel + 1) b v =
      pushLoop fuel
        ⟨b.segs.set b.headIdx
            { b.segs[b.headIdx] with front := b.segs[b.headIdx].front + 1 }
          ++ [new_segment T (min MAX_SIZE (b.segs[b.headIdx].capacity * 2))],
         b.headIdx⟩ v := by
  conv_lhs => rw [pushLoop]
  rw [List.getElem?_eq_getElem hh]
  simp only [if_neg (by omega : ¬ b.segs[b.headIdx].front
    < b.segs[b.headIdx].capacity), if_neg hlast]

/-- Full specification of the allocation iteration: the queue contents are
unchanged, the capacity list gains exactly `min(MAX_SIZE, 2 × head capacity)`
at the end, the head index is unchanged and now has a successor, and the head
segment is still full. -/
theorem pushLoop_alloc_spec {T : Type} (fuel : Nat) (b : RawBuffer T) (v : T)
    (hInv : Inv b) (hh : b.headIdx < b.segs.length)
    (hfull : b.segs[b.headIdx].capacity ≤ b.segs[b.headIdx].front)
    (hlast : ¬ b.headIdx + 1 < b.segs.length) :
    ∃ b2, pushLoop (fuel + 1) b v = pushLoop fuel b2 v ∧ Inv b2 ∧
      b2.abs = b.abs ∧
      b2.segs.map Segment.capacity = b.segs.map Segment.capacity
        ++ [min MAX_SIZE (b.segs[b.headIdx].capacity * 2)] ∧
      b2.headIdx = b.headIdx ∧ b2.headIdx + 1 < b2.segs.length ∧
      b2.segs[b2.headIdx]? =
        some { b.segs[b.headIdx] with front := b.segs[b.headIdx].front + 1 } := by
  obtain ⟨hlen, hcap, hbf, hbc, hslots⟩ := hInv.segInv b.headIdx hh
  have hcap' : 1 ≤ min MAX_SIZE (b.segs[b.headIdx].capacity * 2) := by
    rw [MAX_SIZE]; omega
  refine ⟨_, pushLoop_alloc fuel b v hh hfull hlast, ⟨?_, ?_⟩, ?_, ?_, rfl, ?_, ?_⟩
  · dsimp only
    rw [List.length_append, List.length_set]
    simp
    omega
  · intro i hi
    dsimp only at hi ⊢
    rw [List.length_append, List.length_set] at hi
    simp only [List.length_singleton] at hi
    have hget : ∀ (hq : i < (b.segs.set b.headIdx
        { b.segs[b.headIdx] with front := b.segs[b.headIdx].front + 1 }
        ++ [new_segment T (min MAX_SIZE (b.segs[b.headIdx].capacity * 2))]).length),
        (b.segs.set b.headIdx
          { b.segs[b.headIdx] with front := b.segs[b.headIdx].front + 1 }
          ++ [new_segment T (min MAX_SIZE (b.segs[b.headIdx].capacity * 2))])[i]
        = if hq2 : i < b.segs.length
          then (if b.headIdx = i
            then { b.segs[b.headIdx] with front := b.segs[b.headIdx].front + 1 }
            else b.segs[i])
          else new_segment T (min MAX_SIZE (b.segs[b.headIdx].capacity * 2)) := by
      intro hq
      rw [List.getElem_append]
      split
      · next hl =>
        rw [List.length_set] at hl
        rw [dif_pos hl, List.getElem_set]
      · next hl =>
        rw [List.length_set] at hl
        rw [dif_neg hl, List.getElem_singleton]
    refine ⟨?_, ?_, ?_, ?_⟩
    · rw [hget]
      split
      · next hq2 =>
        split
        · next hki =>
          subst hki
          refine ⟨by dsimp only; simpa using hlen, hcap, by dsimp only; omega,
            by dsimp only; omega, ?_⟩
          intro j hj1 hj2 hj3
          dsimp only at hj1 hj2 hj3 ⊢
          exact hslots j hj1 hj2 (by omega)
        · exact hInv.segInv i hq2
      · exact SegInv_new_segment _ hcap'
    · intro hlt
      rw [hget]
      split
      · next hq2 =>
        split
        · next hki => omega
        · exact hInv.full_before i hq2 hlt
      · next hq2 => omega
    · intro hgt
      rw [hget]
      split
      · next hq2 =>
        split
        · next hki => omega
        · exact hInv.zero_after i hq2 hgt
      · exact ⟨rfl, rfl⟩
    · intro hpos
      rw [hget]
      split
      · next hq2 =>
        split
        · next hki =>
          subst hki
          dsimp only
          exact hInv.back_zero b.headIdx hh hpos
        · exact hInv.back_zero i hq2 hpos
      · rfl
  · dsimp only
    rw [RawBuffer.abs_append _ _ _ 0 0, RawBuffer.abs_set _ _ _ hh,
      Segment.unread_front_bump _ hfull,
      RawBuffer.abs_split' b b.headIdx hh]
    simp [RawBuffer.abs, Segment.unread_new_segment]
  · dsimp only
    have hsame : (b.segs.set b.headIdx
        { b.segs[b.headIdx] with front := b.segs[b.headIdx].front + 1 }).map
          Segment.capacity = b.segs.map Segment.capacity :=
      caps_set_eq _ _ hh _ rfl
    rw [List.map_append, hsame]
    rfl
  · dsimp only
    rw [List.length_append, List.length_set]
    simp
    omega
  · dsimp only
    rw [List.getElem?_append, if_pos (by rw [List.length_set]; exact hh),
      List.getElem?_set, if_pos rfl, if_pos hh]

/-! ## Consumer path: the branches of one `pop` loop iteration -/

/-- Setting `back` to `front` is the identity on a segment whose cursors
already agree. -/
theorem Segment.set_back_eta {T : Type} (s : Segment T) (h : s.back = s.front) :
    { s with back := s.front } = s := by
  cases s with
  | mk c f bk a =>
    dsimp only at h
    subst h
    rfl

/-- Empty-signal branch of the pop loop: the tail segment's read cursor has
caught up with its write cursor; `back` is bumped and then restored to
`front`. -/
theorem popLoop_empty {T : Type} (fuel k : Nat) (s : Segment T)
    (rest : List (Segment T)) (h : s.front ≤ s.back) :
    popLoop (fuel + 1) ⟨s :: rest, k⟩ =
      some (none, ⟨{ s with back := s.front } :: rest, k⟩) := by
  rw [popLoop]
  simp only [ge_iff_le, if_pos h]

/-- Drained-head branch: the tail segment is fully read and is also the head;
its cursors are reset to zero and the loop signals empty. -/
theorem popLoop_drained_head {T : Type} (fuel : Nat) (s : Segment T)
    (rest : List (Segment T)) (h1 : s.back < s.front) (h2 : s.capacity ≤ s.back) :
    popLoop (fuel + 1) ⟨s :: rest, 0⟩ =
      some (none, ⟨{ s with back := 0, front := 0 } :: rest, 0⟩) := by
  rw [popLoop]
  simp only [ge_iff_le, if_neg (by omega : ¬ s.front ≤ s.back), if_pos h2]
  simp

/-- Recycle branch: the tail segment is fully read and is not the head; its
cursors are reset, the tail advances to the successor, and the drained
segment is detached and re-appended at the end of the chain. -/
theorem popLoop_recycle {T : Type} (fuel k : Nat) (s : Segment T)
    (rest : List (Segment T)) (h1 : s.back < s.front) (h2 : s.capacity ≤ s.back)
    (hk : k ≠ 0) :
    popLoop (fuel + 1) ⟨s :: rest, k⟩ =
      popLoop fuel ⟨rest ++ [{ s with back := 0, front := 0 }], k - 1⟩ := by
  rw [popLoop]
  simp only [ge_iff_le, if_neg (by omega : ¬ s.front ≤ s.back), if_pos h2, if_neg hk]

/-- Read branch: the slot at the read cursor holds a value; it is returned and
the read cursor advances. -/
theorem popLoop_read {T : Type} (fuel k : Nat) (s : Segment T)
    (rest : List (Segment T)) (h1 : s.back < s.front) (h2 : s.back < s.capacity) :
    popLoop (fuel + 1) ⟨s :: rest, k⟩ =
      some (s.array.getD s.back none,
        ⟨{ s with back := s.back + 1 } :: rest, k⟩) := by
  rw [popLoop]
  simp only [ge_iff_le, if_neg (by omega : ¬ s.front ≤ s.back),
    if_neg (by omega : ¬ s.capacity ≤ s.back)]

/-- Clause extraction for a buffer given by an explicit cons chain. -/
theorem Inv_cons_iff {T : Type} (s : Segment T) (rest : List (Segment T)) (k : Nat) :
    Inv ⟨s :: rest, k⟩ ↔
      k < rest.length + 1 ∧
      (SegInv s ∧ (0 < k → s.capacity < s.front)) ∧
      (∀ i, (h : i < rest.length) →
        SegInv rest[i] ∧
        (i + 1 < k → rest[i].capacity < rest[i].front) ∧
        (k < i + 1 → rest[i].front = 0 ∧ rest[i].back = 0) ∧
        rest[i].back = 0) := by
  constructor
  · intro hInv
    have hdx : (⟨s :: rest, k⟩ : RawBuffer T).headIdx = k := rfl
    refine ⟨by simpa using hInv.headIdx_lt,
      ⟨hInv.segInv 0 (by simp), fun hk => hInv.full_before 0 (by simp) hk⟩, ?_⟩
    intro i hi
    have hi' : i + 1 < (s :: rest).length := by simp; omega
    exact ⟨hInv.segInv (i + 1) hi',
      fun hlt => hInv.full_before (i + 1) hi' hlt,
      fun hgt => hInv.zero_after (i + 1) hi' hgt,
      hInv.back_zero (i + 1) hi' (Nat.succ_pos i)⟩
  · rintro ⟨hk, ⟨hs, hsf⟩, hrest⟩
    refine ⟨by simpa using hk, ?_⟩
    intro i hi
    match i with
    | 0 =>
      exact ⟨hs, fun h => hsf h, fun h => absurd h (by omega), fun h => absurd h (by omega)⟩
    | i + 1 =>
      have hi2 : i < rest.length := by simp at hi; omega
      obtain ⟨ha, hb, hc, hd⟩ := hrest i hi2
      exact ⟨ha, fun h => hb h, fun h => hc h, fun _ => hd⟩

/-- A buffer whose tail is the head and whose tail has no readable data has
empty queue contents. -/
theorem abs_nil_cons {T : Type} (s : Segment T) (rest : List (Segment T))
    (hInv : Inv ⟨s :: rest, 0⟩) (h : min s.front s.capacity ≤ s.back) :
    RawBuffer.abs ⟨s :: rest, 0⟩ = [] := by
  obtain ⟨-, -, hrest⟩ := (Inv_cons_iff s rest 0).mp hInv
  have hr : RawBuffer.abs ⟨rest, 0⟩ = [] := by
    apply RawBuffer.abs_nil_of_front_zero
    intro i hi
    exact ((hrest i hi).2.2.1 (by omega)).1
  rw [RawBuffer.abs_cons _ _ _ 0, Segment.unread_eq_nil s h, hr]
  rfl

/-- The invariant survives resetting the cursors of a fully drained tail
segment that is also the head. -/
theorem Inv_reset_head {T : Type} (s : Segment T) (rest : List (Segment T))
    (hInv : Inv ⟨s :: rest, 0⟩) :
    Inv ⟨{ s with back := 0, front := 0 } :: rest, 0⟩ := by
  obtain ⟨hk, ⟨hs, _⟩, hrest⟩ := (Inv_cons_iff s rest 0).mp hInv
  rw [Inv_cons_iff]
  refine ⟨hk, ⟨⟨hs.1, hs.2.1, le_refl _, Nat.zero_le _, ?_⟩, fun h => absurd h (by omega)⟩,
    hrest⟩
  intro j _ _ hj
  exact absurd hj (by dsimp only; omega)

/-- The invariant survives recycling a fully drained non-head tail segment:
it is detached, its cursors are reset, and it is re-appended at the end. -/
theorem Inv_recycle {T : Type} (s : Segment T) (rest : List (Segment T)) (k : Nat)
    (hInv : Inv ⟨s :: rest, k⟩) (_hk : k ≠ 0) :
    Inv ⟨rest ++ [{ s with back := 0, front := 0 }], k - 1⟩ := by
  obtain ⟨hkl, ⟨hs, _⟩, hrest⟩ := (Inv_cons_iff s rest k).mp hInv
  refine ⟨by simp; omega, ?_⟩
  intro i hi
  simp only [List.length_append, List.length_singleton] at hi
  dsimp only at hi ⊢
  have hget : ∀ (hq : i < (rest ++ [{ s with back := 0, front := 0 }]).length),
      (rest ++ [{ s with back := 0, front := 0 }])[i]
        = if hq2 : i < rest.length
          then rest[i]
          else { s with back := 0, front := 0 } := by
    intro hq
    rw [List.getElem_append]
    split
    · rfl
    · next hl =>
      exact List.getElem_singleton _ (by simp at hq; omega)
  rw [hget]
  split
  · next hq2 =>
    obtain ⟨ha, hb, hc, hd⟩ := hrest i hq2
    exact ⟨ha, fun h => hb (by omega), fun h => hc (by omega), fun _ => hd⟩
  · next hq2 =>
    refine ⟨⟨hs.1, hs.2.1, le_refl _, Nat.zero_le _, ?_⟩,
      fun h => absurd h (by omega), fun _ => ⟨rfl, rfl⟩, fun _ => rfl⟩
    intro j _ _ hj
    exact absurd hj (by dsimp only; omega)

/-- The invariant survives a successful read (advancing the tail's read
cursor past a written slot). -/
theorem Inv_read {T : Type} (s : Segment T) (rest : List (Segment T)) (k : Nat)
    (hInv : Inv ⟨s :: rest, k⟩) (h1 : s.back < s.front) (h2 : s.back < s.capacity) :
    Inv ⟨{ s with back := s.back + 1 } :: rest, k⟩ := by
  obtain ⟨hkl, ⟨hs, hsf⟩, hrest⟩ := (Inv_cons_iff s rest k).mp hInv
  rw [Inv_cons_iff]
  refine ⟨hkl, ⟨⟨hs.1, hs.2.1, by dsimp only; omega, by dsimp only; omega, ?_⟩,
    fun h => by dsimp only; exact hsf h⟩, hrest⟩
  intro j hj1 hj2 hj3
  dsimp only at hj1 hj2 hj3 ⊢
  exact hs.2.2.2.2 j hj1 (by omega) hj3

/-- Full specification of the pop loop under the invariant: with fuel
exceeding the head index it terminates, returns the first queue element (or
`none` on an empty queue), removes exactly that element, and neither
allocates nor frees segments. -/
theorem popLoop_spec {T : Type} :
    ∀ (fuel : Nat) (b : RawBuffer T), Inv b → b.headIdx < fuel →
      ∃ r b', popLoop fuel b = some (r, b') ∧ Inv b' ∧
        r = b.abs.head?.join ∧ b'.abs = b.abs.tail ∧
        b'.segs.length = b.segs.length := by
  intro fuel
  induction fuel with
  | zero =>
    intro b _ h
    omega
  | succ fuel ih =>
    intro b hInv hfuel
    obtain ⟨segs, k⟩ := b
    cases segs with
    | nil =>
      have := hInv.headIdx_lt
      simp at this
    | cons s rest =>
      have hdx : (⟨s :: rest, k⟩ : RawBuffer T).headIdx = k := rfl
      have hs0 : SegInv s := hInv.segInv 0 (by simp)
      obtain ⟨hlen, hcap, hbf, hbc, hslots⟩ := hs0
      by_cases h1 : s.front ≤ s.back
      · -- empty branch
        have hbeq : s.back = s.front := le_antisymm hbf h1
        have hk : k = 0 := by
          by_contra hk
          have := hInv.full_before 0 (by simp) (by omega)
          simp only [List.getElem_cons_zero] at this
          omega
        subst hk
        have habs : RawBuffer.abs ⟨s :: rest, 0⟩ = [] :=
          abs_nil_cons s rest hInv (by omega)
        refine ⟨none, ⟨s :: rest, 0⟩, ?_, hInv, by rw [habs]; rfl,
          by rw [habs]; rfl, rfl⟩
        rw [popLoop_empty fuel 0 s rest h1, Segment.set_back_eta s hbeq]
      · push_neg at h1
        by_cases h2 : s.capacity ≤ s.back
        · -- drained tail segment
          have hunil : s.unread = [] := Segment.unread_eq_nil s (by omega)
          by_cases hk : k = 0
          · subst hk
            have habs : RawBuffer.abs ⟨s :: rest, 0⟩ = [] :=
              abs_nil_cons s rest hInv (by omega)
            have habs2 : RawBuffer.abs
                ⟨{ s with back := 0, front := 0 } :: rest, 0⟩ = [] := by
              rw [RawBuffer.abs_cons _ _ _ 0,
                Segment.unread_of_front_zero _ rfl]
              have : RawBuffer.abs ⟨s :: rest, 0⟩ =
                  s.unread ++ RawBuffer.abs ⟨rest, 0⟩ :=
                RawBuffer.abs_cons _ _ _ 0
              rw [habs] at this
              rw [List.nil_append]
              exact (List.append_eq_nil.mp this.symm).2
            exact ⟨none, _, popLoop_drained_head fuel s rest h1 h2,
              Inv_reset_head s rest hInv, by rw [habs]; rfl,
              by rw [habs, habs2]; rfl, by simp⟩
          · -- recycle and retry
            have hInv1 := Inv_recycle s rest k hInv hk
            have habs1 : RawBuffer.abs ⟨rest ++ [{ s with back := 0, front := 0 }],
                k - 1⟩ = RawBuffer.abs ⟨s :: rest, k⟩ := by
              rw [RawBuffer.abs_append rest [{ s with back := 0, front := 0 }]
                  (k - 1) 0 0,
                RawBuffer.abs_cons { s with back := 0, front := 0 } [] 0 0,
                Segment.unread_of_front_zero { s with back := 0, front := 0 } rfl,
                RawBuffer.abs_cons s rest k 0, hunil]
              simp [RawBuffer.abs]
            obtain ⟨r, b', heq, hInv', hr, habs', hlen'⟩ :=
              ih ⟨rest ++ [{ s with back := 0, front := 0 }], k - 1⟩ hInv1
                (by dsimp only; omega)
            refine ⟨r, b', ?_, hInv', by rwa [habs1] at hr,
              by rwa [habs1] at habs', by simpa using hlen'⟩
            rw [popLoop_recycle fuel k s rest h1 h2 hk]
            exact heq
        · -- successful read
          push_neg at h2
          have hune : s.unread.length = min s.front s.capacity - s.back :=
            Segment.length_unread s hlen
          have hunn : s.unread ≠ [] := by
            intro hcon
            rw [hcon] at hune
            simp at hune
            omega
          have habs : RawBuffer.abs ⟨s :: rest, k⟩ =
              s.unread ++ RawBuffer.abs ⟨rest, 0⟩ := RawBuffer.abs_cons _ _ _ 0
          refine ⟨_, _, popLoop_read fuel k s rest h1 h2,
            Inv_read s rest k hInv h1 h2, ?_, ?_, by simp⟩
          · rw [habs, List.head?_append,
              Segment.head?_unread s (by omega),
              List.getElem?_eq_getElem (by omega : s.back < s.array.length)]
            rw [List.getD_eq_getElem?_getD,
              List.getElem?_eq_getElem (by omega : s.back < s.array.length)]
            rfl
          · rw [RawBuffer.abs_cons _ _ _ 0, Segment.tail_unread, habs,
              List.tail_append]
            rw [if_neg (by simpa using hunn)]

/-! ## Top-level specifications of `push` and `pop` -/

/-- The push loop, started with its fuel at 3, always succeeds on a buffer
satisfying the invariant: it preserves the invariant, appends exactly the
pushed value to the queue contents, and either allocates no segment or
allocates exactly one of capacity `min(MAX_SIZE, 2 × capacity of the head
segment at call time)`. -/
theorem pushLoop_spec {T : Type} (b : RawBuffer T) (v : T) (hInv : Inv b) :
    ∃ b', pushLoop 3 b v = some b' ∧ Inv b' ∧
      b'.abs = b.abs ++ [some v] ∧
      (b'.segs.map Segment.capacity = b.segs.map Segment.capacity ∨
       b'.segs.map Segment.capacity = b.segs.map Segment.capacity
         ++ [min MAX_SIZE ((b.segs.get ⟨b.headIdx, hInv.headIdx_lt⟩).capacity * 2)]) := by
  have hh := hInv.headIdx_lt
  rw [List.get_eq_getElem]
  by_cases hfc : b.segs[b.headIdx].front < b.segs[b.headIdx].capacity
  · obtain ⟨b', heq, h1, h2, h3, _⟩ := pushLoop_write_spec 2 b v hInv hh hfc
    exact ⟨b', heq, h1, h2, Or.inl h3⟩
  · push_neg at hfc
    by_cases hnext : b.headIdx + 1 < b.segs.length
    · obtain ⟨b1, heq1, hInv1, habs1, hcaps1, hhead1, hlt1, hget1, hfront0⟩ :=
        pushLoop_advance_spec 2 b v hInv hh hfc hnext
      obtain ⟨hlt', heq'⟩ := List.getElem?_eq_some.mp hget1
      have hcap1 : 1 ≤ b.segs[b.headIdx + 1].capacity :=
        (hInv.segInv _ hnext).2.1
      have hfc1 : b1.segs[b1.headIdx].front < b1.segs[b1.headIdx].capacity := by
        rw [heq', hfront0]
        omega
      obtain ⟨b', heq2, h1, h2, h3, _⟩ := pushLoop_write_spec 1 b1 v hInv1 hlt' hfc1
      refine ⟨b', ?_, h1, by rw [h2, habs1], Or.inl (by rw [h3, hcaps1])⟩
      rw [heq1]
      exact heq2
    · obtain ⟨b2, heq1, hInv2, habs2, hcaps2, hhead2, hlt2, hget2⟩ :=
        pushLoop_alloc_spec 2 b v hInv hh hfc hnext
      obtain ⟨hlt2', heq2'⟩ := List.getElem?_eq_some.mp hget2
      have hfull2 : b2.segs[b2.headIdx].capacity ≤ b2.segs[b2.headIdx].front := by
        rw [heq2']
        dsimp only
        omega
      obtain ⟨b3, heq3, hInv3, habs3, hcaps3, hhead3, hlt3, hget3, hfront3⟩ :=
        pushLoop_advance_spec 1 b2 v hInv2 hlt2' hfull2 hlt2
      obtain ⟨hlt3', heq3'⟩ := List.getElem?_eq_some.mp hget3
      have hcap3 : 1 ≤ b2.segs[b2.headIdx + 1].capacity :=
        (hInv2.segInv _ hlt2).2.1
      have hfc3 : b3.segs[b3.headIdx].front < b3.segs[b3.headIdx].capacity := by
        rw [heq3', hfront3]
        omega
      obtain ⟨b', heq4, h1, h2, h3, _⟩ := pushLoop_write_spec 0 b3 v hInv3 hlt3' hfc3
      refine ⟨b', ?_, h1, by rw [h2, habs3, habs2],
        Or.inr (by rw [h3, hcaps3, hcaps2])⟩
      rw [heq1, heq3]
      exact heq4

/-- `push` preserves the invariant, appends the value to the queue contents,
and changes the capacity list only by possibly appending one segment of
capacity `min(MAX_SIZE, 2 × head capacity)`. -/
theorem push_spec {T : Type} (b : RawBuffer T) (v : T) (hInv : Inv b) :
    Inv (b.push v) ∧ (b.push v).abs = b.abs ++ [some v] ∧
    ((b.push v).segs.map Segment.capacity = b.segs.map Segment.capacity ∨
     (b.push v).segs.map Segment.capacity = b.segs.map Segment.capacity
       ++ [min MAX_SIZE ((b.segs.get ⟨b.headIdx, hInv.headIdx_lt⟩).capacity * 2)]) := by
  obtain ⟨b', heq, h1, h2, h3⟩ := pushLoop_spec b v hInv
  unfold RawBuffer.push
  rw [heq]
  exact ⟨h1, h2, h3⟩

/-- `pop` preserves the invariant, returns the first queue element (`none` on
an empty queue), removes exactly it, and keeps the number of segments. -/
theorem pop_spec {T : Type} (b : RawBuffer T) (hInv : Inv b) :
    Inv b.pop.2 ∧ b.pop.1 = b.abs.head?.join ∧
    b.pop.2.abs = b.abs.tail ∧ b.pop.2.segs.length = b.segs.length := by
  obtain ⟨r, b', heq, h1, h2, h3, h4⟩ :=
    popLoop_spec (b.segs.length + 1) b hInv (by have := hInv.headIdx_lt; omega)
  unfold RawBuffer.pop
  rw [heq]
  exact ⟨h1, h2, h3, h4⟩

/-- Every buffer reachable by a sequential history satisfies the invariant. -/
theorem Reachable.inv {T : Type} {b : RawBuffer T} (h : Reachable b) : Inv b := by
  induction h with
  | new => exact Inv_new T
  | push v _ ih => exact (push_spec _ v ih).1
  | pop _ ih => exact (pop_spec _ ih).1

/-- Under the invariant, every element of the queue contents is a written
value (no uninitialized slot is ever observed). -/
theorem abs_isSome {T : Type} (b : RawBuffer T) (hInv : Inv b) :
    ∀ x ∈ b.abs, x.isSome := by
  intro x hx
  unfold RawBuffer.abs at hx
  rw [List.mem_flatten] at hx
  obtain ⟨l, hl, hxl⟩ := hx
  rw [List.mem_iff_getElem] at hl
  obtain ⟨i, hi, rfl⟩ := hl
  rw [List.getElem_map] at hxl
  have hi' : i < b.segs.length := by simpa using hi
  obtain ⟨hlen, hcap, hbf, hbc, hslots⟩ := hInv.segInv i hi'
  rw [List.mem_iff_getElem] at hxl
  obtain ⟨j, hj, rfl⟩ := hxl
  have hjq := List.getElem?_eq_getElem hj
  rw [Segment.unread_getElem? b.segs[i] j] at hjq
  by_cases hc : b.segs[i].back + j < min b.segs[i].front b.segs[i].capacity
  · rw [if_pos hc] at hjq
    have := hslots (b.segs[i].back + j) (by omega) (by omega) (by omega)
    rw [List.getD_eq_getElem?_getD, hjq] at this
    simpa using this
  · rw [if_neg hc] at hjq
    exact absurd hjq.symm (by simp)

/-- Pushing a list of values appends them, in order, to the queue contents. -/
theorem pushN_spec {T : Type} (vs : List T) (b : RawBuffer T) (hInv : Inv b) :
    Inv (pushN vs b) ∧ (pushN vs b).abs = b.abs ++ vs.map some := by
  induction vs generalizing b with
  | nil => exact ⟨hInv, by simp [pushN]⟩
  | cons v vs ih =>
    obtain ⟨h1, h2, _⟩ := push_spec b v hInv
    obtain ⟨h3, h4⟩ := ih (b.push v) h1
    refine ⟨h3, ?_⟩
    have : pushN (v :: vs) b = pushN vs (b.push v) := rfl
    rw [this, h4, h2]
    simp

/-- Popping `n` times returns the first `n` queue elements, in order, and
leaves the rest. -/
theorem popN_spec {T : Type} (n : Nat) (b : RawBuffer T) (hInv : Inv b)
    (hn : n ≤ b.abs.length) :
    (popN n b).1 = b.abs.take n ∧ Inv (popN n b).2 ∧
      (popN n b).2.abs = b.abs.drop n := by
  induction n generalizing b with
  | zero => exact ⟨by simp [popN], hInv, by simp [popN]⟩
  | succ n ih =>
    obtain ⟨h1, h2, h3, _⟩ := pop_spec b hInv
    cases habs : b.abs with
    | nil =>
      rw [habs] at hn
      simp at hn
    | cons x rest =>
      rw [habs] at h2 h3
      simp only [List.head?_cons, List.tail_cons] at h2 h3
      obtain ⟨ih1, ih2, ih3⟩ := ih b.pop.2 h1 (by rw [h3]; rw [habs] at hn; simpa using hn)
      refine ⟨?_, ih2, ?_⟩
      · show b.pop.1 :: (popN n b.pop.2).1 = _
        rw [ih1, h3, h2]
        rfl
      · show (popN n b.pop.2).2.abs = _
        rw [ih3, h3]
        rfl

/-- Under the invariant, buffer teardown destructs exactly the queue
contents (the written-but-unread values). -/
theorem dropDestructs_eq_abs {T : Type} (b : RawBuffer T) (hInv : Inv b) :
    b.dropDestructs = b.abs := by
  unfold RawBuffer.dropDestructs RawBuffer.abs
  congr 1
  apply List.map_congr_left
  intro s hs
  rw [List.mem_iff_getElem] at hs
  obtain ⟨i, hi, rfl⟩ := hs
  exact Segment.dropDestructs_eq_unread _ (hInv.segInv i hi)

/-! ## Iterator lemmas -/

/-- Exhausting the iterator is the unfolding of repeated `RawIter.next`
calls: the sequence is single-pass. -/
theorem iterToList_next {T : Type} (it : RawIter T) :
    iterToList it = match it.next with
      | none => []
      | some (sl, it') => sl :: iterToList it' := by
  obtain ⟨segs⟩ := it
  cases segs <;> rfl

theorem iterToListAux_eq_map {T : Type} (l : List (Segment T)) :
    iterToListAux l = l.map segSlice := by
  induction l with
  | nil => rfl
  | cons s rest ih =>
    simp only [iterToListAux, List.map_cons, ih]

/-- The iterator yields exactly one slice per segment of the whole chain,
starting at the tail, in chain order. -/
theorem iterToList_iter {T : Type} (b : RawBuffer T) :
    iterToList b.iter = b.segs.map segSlice :=
  iterToListAux_eq_map b.segs

/-- Under the invariant each yielded slice is exactly the unread region
`[read_cursor, min(write_cursor, capacity))` of its segment. -/
theorem segSlice_eq_unread {T : Type} (s : Segment T) (h : s.back ≤ s.capacity) :
    segSlice s = s.unread := by
  unfold segSlice Segment.unread
  rw [Nat.min_eq_left h]

/-- `headCapacity` agrees with the head segment's capacity when the head
index is in range. -/
theorem headCapacity_eq {T : Type} (b : RawBuffer T) (hh : b.headIdx < b.segs.length) :
    b.headCapacity = b.segs[b.headIdx].capacity := by
  unfold RawBuffer.headCapacity
  rw [List.getD_eq_getElem?_getD, List.getElem?_eq_getElem hh]
  rfl

/-- Pushing any list of values preserves reachability. -/
theorem Reachable.pushN {T : Type} (vs : List T) {b : RawBuffer T}
    (h : Reachable b) : Reachable (RipStruct.pushN vs b) := by
  induction vs generalizing b with
  | nil => exact h
  | cons v vs ih => exact ih (h.push v)

/-- Popping any number of times preserves reachability. -/
theorem Reachable.popN {T : Type} (n : Nat) {b : RawBuffer T}
    (h : Reachable b) : Reachable (RipStruct.popN n b).2 := by
  induction n generalizing b with
  | zero => exact h
  | succ n ih => exact ih h.pop

/-! ## The claims -/

/-- C1: for a single producer enqueueing `v0, …, vn-1` in order into a fresh
buffer with no concurrent producers, a sole consumer dequeueing `n` times
returns exactly `v0, …, vn-1` in that order, for every `n` — in particular
for `n` crossing segment-capacity boundaries such as 70 or 65536. -/
theorem claim1_fifo_single_producer {T : Type} (vs : List T) :
    (popN vs.length (pushN vs (RawBuffer.new T))).1 = vs.map some := by
  obtain ⟨h1, h2⟩ := pushN_spec vs (RawBuffer.new T) (Inv_new T)
  rw [RawBuffer.abs_new, List.nil_append] at h2
  obtain ⟨g1, _, _⟩ := popN_spec vs.length _ h1 (by rw [h2]; simp)
  rw [g1, h2]
  have hl : (vs.map some).length = vs.length := by simp
  rw [← hl, List.take_length]

/-- C2: on every sequentially reachable buffer state, `pop` returns `none`
iff no enqueued value remains unread; in particular a fresh buffer pops
`none`, and after pushing `k` values and popping `k` times the next pop
returns `none`. -/
theorem claim2_empty_iff_no_unread {T : Type} (b : RawBuffer T) (h : Reachable b) :
    (b.pop.1 = none ↔ b.abs = []) ∧
    (RawBuffer.new T).pop.1 = none ∧
    (∀ vs : List T, (popN vs.length (pushN vs (RawBuffer.new T))).2.pop.1 = none) := by
  have main : ∀ c : RawBuffer T, Inv c → (c.pop.1 = none ↔ c.abs = []) := by
    intro c hInv
    obtain ⟨_, h2, _, _⟩ := pop_spec c hInv
    rw [h2]
    rcases habs : c.abs with _ | ⟨x, rest⟩
    · simp
    · have hx := abs_isSome c hInv x (by rw [habs]; exact List.mem_cons_self _ _)
      simp only [List.head?_cons]
      constructor
      · intro hn
        rw [show (some x).join = x from rfl] at hn
        rw [hn] at hx
        simp at hx
      · intro hcon
        exact absurd hcon (by simp)
  refine ⟨main b h.inv, ?_, ?_⟩
  · rw [main (RawBuffer.new T) (Inv_new T), RawBuffer.abs_new]
  · intro vs
    obtain ⟨h1, h2⟩ := pushN_spec vs (RawBuffer.new T) (Inv_new T)
    rw [RawBuffer.abs_new, List.nil_append] at h2
    obtain ⟨_, g2, g3⟩ := popN_spec vs.length _ h1 (by rw [h2]; simp)
    rw [main _ g2, g3, h2]
    have hl : (vs.map some).length = vs.length := by simp
    rw [← hl, List.drop_length]

/-- C2 witness: the iff instantiated at a freshly constructed buffer. -/
theorem claim2_witness :
    (((RawBuffer.new Nat).pop.1 = none ↔ (RawBuffer.new Nat).abs = []) ∧
     (RawBuffer.new Nat).pop.1 = none ∧
     (∀ vs : List Nat,
       (popN vs.length (pushN vs (RawBuffer.new Nat))).2.pop.1 = none)) :=
  claim2_empty_iff_no_unread (RawBuffer.new Nat) Reachable.new

/-- C3: when the consumer finds the tail segment fully drained
(`read cursor ≥ capacity`) and the tail is not the head, one pop-loop
iteration resets that segment's cursors to 0, advances the tail to the
successor, detaches the drained segment and re-appends it at the current end
of the chain; the pop reuses storage — the number of live segments does not
change. -/
theorem claim3_recycle_drained_tail {T : Type} (b : RawBuffer T) (hInv : Inv b)
    (s : Segment T) (rest : List (Segment T)) (hsegs : b.segs = s :: rest)
    (hhead : 0 < b.headIdx) (hdrained : s.capacity ≤ s.back) :
    (∀ fuel, popLoop (fuel + 1) b =
      popLoop fuel ⟨rest ++ [{ s with back := 0, front := 0 }], b.headIdx - 1⟩) ∧
    b.pop.2.segs.length = b.segs.length := by
  have hlenpop := (pop_spec b hInv).2.2.2
  obtain ⟨segs, k⟩ := b
  dsimp only at hsegs hhead ⊢
  subst hsegs
  have hs0 : SegInv s := hInv.segInv 0 (by simp)
  have hfull : s.capacity < s.front := hInv.full_before 0 (by simp) hhead
  have h1 : s.back < s.front := by
    have := hs0.2.2.2.1
    omega
  exact ⟨fun fuel => popLoop_recycle fuel k s rest h1 hdrained (by omega), hlenpop⟩

/-- C3 witness: a two-segment buffer with a fully drained tail behind the
head; the recycle equation applied at fuel 0, and segment-count
preservation. -/
theorem claim3_witness :
    (Inv (⟨[⟨2, 3, 2, [some 7, some 8]⟩, ⟨2, 1, 0, [some 9, none]⟩], 1⟩ :
        RawBuffer Nat) ∧
     (2 : Nat) ≤ 2 ∧ (0 : Nat) < 1) ∧
    popLoop 1 (⟨[⟨2, 3, 2, [some 7, some 8]⟩, ⟨2, 1, 0, [some 9, none]⟩], 1⟩ :
        RawBuffer Nat) =
      popLoop 0 ⟨[(⟨2, 1, 0, [some 9, none]⟩ : Segment Nat),
        ⟨2, 0, 0, [some 7, some 8]⟩], 0⟩ ∧
    (⟨[⟨2, 3, 2, [some 7, some 8]⟩, ⟨2, 1, 0, [some 9, none]⟩], 1⟩ :
        RawBuffer Nat).pop.2.segs.length =
      (⟨[⟨2, 3, 2, [some 7, some 8]⟩, ⟨2, 1, 0, [some 9, none]⟩], 1⟩ :
        RawBuffer Nat).segs.length := by
  refine ⟨⟨by decide, by decide, by decide⟩, ?_, ?_⟩
  · exact (claim3_recycle_drained_tail _ (by decide) _ _ rfl (by decide)
      (by decide)).1 0
  · exact (claim3_recycle_drained_tail _ (by decide) _ _ rfl (by decide)
      (by decide)).2

/-- C4: destroying the buffer after enqueueing the values `vs` and dequeuing
`k < |vs|` of them destructs exactly the `|vs| - k` remaining values, in
order, and none of the already-dequeued ones; per segment the destructed
slots are `[min(read, capacity), min(write, capacity))`. -/
theorem claim4_teardown_destructs_unread {T : Type} (vs : List T) (k : Nat)
    (hk : k < vs.length) :
    (popN k (pushN vs (RawBuffer.new T))).2.dropDestructs = (vs.map some).drop k := by
  obtain ⟨h1, h2⟩ := pushN_spec vs (RawBuffer.new T) (Inv_new T)
  rw [RawBuffer.abs_new, List.nil_append] at h2
  obtain ⟨_, g2, g3⟩ := popN_spec k _ h1 (by rw [h2]; simp; omega)
  rw [dropDestructs_eq_abs _ g2, g3, h2]

/-- C4 witness: three pushed values, one popped; teardown destructs exactly
the remaining two. -/
theorem claim4_witness :
    (1 : Nat) < ([1, 2, 3] : List Nat).length ∧
    (popN 1 (pushN [1, 2, 3] (RawBuffer.new Nat))).2.dropDestructs =
      (([1, 2, 3] : List Nat).map some).drop 1 :=
  ⟨by decide, claim4_teardown_destructs_unread [1, 2, 3] 1 (by decide)⟩

/-- C5: the first segment is allocated with capacity `STARTING_SIZE = 64`;
a push allocates at most one segment, and when it does the new segment's
capacity is `min(MAX_SIZE, 2 × capacity of the head segment when growth was
triggered)`; once the head capacity is the ceiling `MAX_SIZE`, the allocated
capacity is exactly `MAX_SIZE`. -/
theorem claim5_growth_policy {T : Type} (b : RawBuffer T) (v : T) (hInv : Inv b) :
    (RawBuffer.new T).segs.map Segment.capacity = [STARTING_SIZE] ∧
    STARTING_SIZE = 64 ∧ MAX_SIZE = 262144 ∧
    ((b.push v).segs.map Segment.capacity = b.segs.map Segment.capacity ∨
     (b.push v).segs.map Segment.capacity
       = b.segs.map Segment.capacity ++ [min MAX_SIZE (b.headCapacity * 2)]) ∧
    (b.headCapacity = MAX_SIZE → min MAX_SIZE (b.headCapacity * 2) = MAX_SIZE) := by
  refine ⟨rfl, rfl, rfl, ?_, ?_⟩
  · have hh := hInv.headIdx_lt
    have hconv : b.headCapacity = b.segs[b.headIdx].capacity :=
      headCapacity_eq b hh
    rw [hconv]
    exact (push_spec b v hInv).2.2
  · intro h
    rw [h, MAX_SIZE]
    omega

/-- C5 witness: a buffer whose single segment (capacity 1) is full, so the
push allocates a segment of capacity `min(MAX_SIZE, 2)` = 2. -/
theorem claim5_witness :
    Inv (⟨[⟨1, 2, 1, [some 5]⟩], 0⟩ : RawBuffer Nat) ∧
    ((RawBuffer.new Nat).segs.map Segment.capacity = [STARTING_SIZE] ∧
     STARTING_SIZE = 64 ∧ MAX_SIZE = 262144 ∧
     (((⟨[⟨1, 2, 1, [some 5]⟩], 0⟩ : RawBuffer Nat).push 9).segs.map
         Segment.capacity =
        (⟨[⟨1, 2, 1, [some 5]⟩], 0⟩ : RawBuffer Nat).segs.map Segment.capacity ∨
      ((⟨[⟨1, 2, 1, [some 5]⟩], 0⟩ : RawBuffer Nat).push 9).segs.map
         Segment.capacity =
        (⟨[⟨1, 2, 1, [some 5]⟩], 0⟩ : RawBuffer Nat).segs.map Segment.capacity
          ++ [min MAX_SIZE
              ((⟨[⟨1, 2, 1, [some 5]⟩], 0⟩ : RawBuffer Nat).headCapacity * 2)]) ∧
     ((⟨[⟨1, 2, 1, [some 5]⟩], 0⟩ : RawBuffer Nat).headCapacity = MAX_SIZE →
      min MAX_SIZE
        ((⟨[⟨1, 2, 1, [some 5]⟩], 0⟩ : RawBuffer Nat).headCapacity * 2)
        = MAX_SIZE)) :=
  ⟨by decide, claim5_growth_policy _ 9 (by decide)⟩

/-- C7: popping a buffer whose tail segment has `read cursor ≥ write cursor`
signals empty and leaves the buffer — in particular both cursors of the tail
segment — exactly unchanged. -/
theorem claim7_empty_pop_frame {T : Type} (b : RawBuffer T) (hInv : Inv b)
    (s : Segment T) (rest : List (Segment T)) (hsegs : b.segs = s :: rest)
    (hempty : s.front ≤ s.back) :
    b.pop = (none, b) := by
  obtain ⟨segs, k⟩ := b
  dsimp only at hsegs ⊢
  subst hsegs
  have hs0 : SegInv s := hInv.segInv 0 (by simp)
  have hbeq : s.back = s.front := le_antisymm hs0.2.2.1 hempty
  unfold RawBuffer.pop
  rw [popLoop_empty _ k s rest hempty, Segment.set_back_eta s hbeq]
  rfl

/-- C7 witness: a fresh buffer (tail cursors both 0) pops `none` and is left
unchanged. -/
theorem claim7_witness :
    Inv (RawBuffer.new Nat) ∧
    (new_segment Nat STARTING_SIZE).front ≤ (new_segment Nat STARTING_SIZE).back ∧
    (RawBuffer.new Nat).pop = (none, RawBuffer.new Nat) :=
  ⟨by decide, by decide,
    claim7_empty_pop_frame (RawBuffer.new Nat) (by decide)
      (new_segment Nat STARTING_SIZE) [] rfl (by decide)⟩

/-- C8: on every invariant-satisfying (hence every sequentially reachable)
buffer state, the claim-and-write loop of `push` terminates — fuel 3 already
suffices — and the pushed value ends up stored: it is appended to the queue
contents. -/
theorem claim8_push_terminates_stores {T : Type} (b : RawBuffer T) (v : T)
    (hInv : Inv b) :
    (∃ b', pushLoop 3 b v = some b') ∧
    (b.push v).abs = b.abs ++ [some v] := by
  obtain ⟨b', heq, _, _, _⟩ := pushLoop_spec b v hInv
  exact ⟨⟨b', heq⟩, (push_spec b v hInv).2.1⟩

/-- C8 witness: the push loop terminates and stores the value on a fresh
buffer. -/
theorem claim8_witness :
    Inv (RawBuffer.new Nat) ∧
    ((∃ b', pushLoop 3 (RawBuffer.new Nat) 42 = some b') ∧
     ((RawBuffer.new Nat).push 42).abs = (RawBuffer.new Nat).abs ++ [some 42]) :=
  ⟨by decide, claim8_push_terminates_stores (RawBuffer.new Nat) 42 (by decide)⟩

set_option maxRecDepth 200000 in
/-- C6, counterexample: the sequential iterator does not yield one slice per
segment "from tail to head" — on the reachable buffer obtained by pushing 65
values and popping all 65 (which recycles the drained first segment to a
position past the head), it also yields a slice for the recycled segment past
the head. -/
theorem claim6_counterexample :
    Reachable ((popN 65 (pushN (List.range 65) (RawBuffer.new Nat))).2) ∧
    iterToList ((popN 65 (pushN (List.range 65) (RawBuffer.new Nat))).2).iter ≠
      iterSlicesToHead ((popN 65 (pushN (List.range 65) (RawBuffer.new Nat))).2) :=
  ⟨Reachable.popN 65 (Reachable.pushN (List.range 65) Reachable.new), by decide⟩

/-- C6, amended: the sequential iterator yields one contiguous slice per
segment of the whole chain — from the current tail to the end of the chain,
including recycled segments past the head — in chain order, each slice
covering exactly the unread region `[read_cursor, min(write_cursor,
capacity))` of its segment at iteration time; the sequence is finite and
single-pass (`iterToList` is the exhaustive unfolding of `RawIter.next`). -/
theorem claim6_iter_slices_amended {T : Type} (b : RawBuffer T) (hInv : Inv b) :
    iterToList b.iter = b.segs.map Segment.unread ∧
    (iterToList b.iter).length = b.segs.length := by
  have hmap : iterToList b.iter = b.segs.map segSlice := iterToList_iter b
  have hcongr : b.segs.map segSlice = b.segs.map Segment.unread := by
    apply List.map_congr_left
    intro s hs
    rw [List.mem_iff_getElem] at hs
    obtain ⟨i, hi, rfl⟩ := hs
    exact segSlice_eq_unread _ (hInv.segInv i hi).2.2.2.1
  refine ⟨hmap.trans hcongr, ?_⟩
  rw [hmap]
  simp

/-- C6 witness (for the amended claim): a fresh buffer yields exactly one
slice, the unread region of its only segment. -/
theorem claim6_witness :
    Inv (RawBuffer.new Nat) ∧
    (iterToList (RawBuffer.new Nat).iter =
      (RawBuffer.new Nat).segs.map Segment.unread ∧
     (iterToList (RawBuffer.new Nat).iter).length =
      (RawBuffer.new Nat).segs.length) :=
  ⟨by decide, claim6_iter_slices_amended (RawBuffer.new Nat) (by decide)⟩

set_option maxRecDepth 200000 in
/-- C10: the iterator yields a (possibly empty) slice for every segment in
the chain rather than skipping empty ones: a fresh buffer yields exactly one
empty slice (not zero), in general the number of slices equals the number of
chain segments, and after pushing 65 values and popping all 65 the recycled,
fully drained segment at the end of the chain contributes one additional
empty slice. -/
theorem claim10_iter_empty_slices :
    (∀ (T : Type), iterToList (RawBuffer.new T).iter = [[]]) ∧
    (∀ (T : Type) (b : RawBuffer T),
      (iterToList b.iter).length = b.segs.length) ∧
    iterToList ((popN 65 (pushN (List.range 65) (RawBuffer.new Nat))).2).iter
      = [[], []] := by
  refine ⟨?_, ?_, by decide⟩
  · intro T
    rw [iterToList_iter]
    simp [RawBuffer.new, segSlice, new_segment]
  · intro T b
    rw [iterToList_iter]
    simp

/-! ## Lemmas for the concurrent-producer model -/

theorem sum_map_set {α : Type _} {M : Type _} [AddCommMonoid M] (l : List α)
    (j : Nat) (hj : j < l.length) (a : α) (f : α → M) :
    ((l.set j a).map f).sum + f l[j] = (l.map f).sum + f a := by
  conv_rhs => rw [list_split_at l j hj]
  rw [List.set_eq_take_cons_drop _ hj]
  simp only [List.map_append, List.map_cons, List.sum_append, List.sum_cons]
  abel

theorem take_set_comm {α : Type _} (l : List α) (m pos : Nat) (x : α)
    (hp : pos < m) :
    (l.set pos x).take m = (l.take m).set pos x := by
  apply List.ext_getElem?
  intro n
  simp only [List.getElem?_take, List.getElem?_set, List.length_take]
  split_ifs <;> first | rfl | (exfalso; omega)

theorem Segment.reduceOption_unread_bump {T : Type} (s : Segment T)
    (hlen : s.array.length = s.capacity) (hback : s.back = 0)
    (hnone : s.front < s.capacity → s.array.getD s.front none = none) :
    (Segment.unread { s with front := s.front + 1 }).reduceOption
      = s.unread.reduceOption := by
  unfold Segment.unread
  dsimp only
  rw [hback]
  simp only [List.drop_zero]
  by_cases hc : s.front < s.capacity
  · rw [Nat.min_eq_left (by omega), Nat.min_eq_left (by omega)]
    rw [List.take_succ, List.reduceOption_append]
    have harr : s.array[s.front]? = some none := by
      have h2 := hnone hc
      rw [List.getD_eq_getElem?_getD,
        List.getElem?_eq_getElem (by omega : s.front < s.array.length)] at h2
      rw [List.getElem?_eq_getElem (by omega : s.front < s.array.length)]
      simpa using h2
    rw [harr]
    simp
  · rw [Nat.min_eq_right (by omega), Nat.min_eq_right (by omega)]

theorem Segment.reduceOption_unread_write {T : Type} (s : Segment T) (pos : Nat)
    (v : T) (hlen : s.array.length = s.capacity) (hback : s.back = 0)
    (hpc : pos < s.capacity) (hpf : pos < s.front)
    (hnone : s.array.getD pos none = none) :
    ((Segment.unread { s with array := s.array.set pos (some v) }).reduceOption
        : Multiset T)
      = v ::ₘ (s.unread.reduceOption : Multiset T) := by
  unfold Segment.unread
  dsimp only
  rw [hback]
  simp only [List.drop_zero]
  have hpm : pos < min s.front s.capacity := by omega
  rw [take_set_comm _ _ _ _ hpm]
  have hpl : pos < (s.array.take (min s.front s.capacity)).length := by
    simp
    omega
  have hlpos : (s.array.take (min s.front s.capacity))[pos] = none := by
    rw [List.getElem_take]
    have h2 := hnone
    rw [List.getD_eq_getElem?_getD,
      List.getElem?_eq_getElem (by omega : pos < s.array.length)] at h2
    simpa using h2
  rw [List.set_eq_take_cons_drop _ hpl]
  conv_rhs => rw [list_split_at (s.array.take (min s.front s.capacity)) pos hpl]
  rw [hlpos]
  rw [List.reduceOption_append, List.reduceOption_cons_of_some,
    List.reduceOption_append, List.reduceOption_cons_of_none]
  refine (Multiset.coe_eq_coe.mpr List.perm_middle).trans ?_
  rfl

theorem getElem_append_singleton {α : Type _} (l : List α) (x : α) (i : Nat)
    (hi : i < (l ++ [x]).length) :
    (l ++ [x])[i] = if _ : i < l.length then l[i] else x := by
  rw [List.getElem_append]
  split
  · rfl
  · next hl =>
    exact List.getElem_singleton _ (by simp at hi; omega)

/-- Replacing any thread with one holding no claim preserves claim
disjointness. -/
theorem TDisj_set_nonclaim {T : Type} {threads : List (PThread T)}
    (htd : TDisj threads) (i : Nat) (t1 : PThread T)
    (hnc1 : ∀ h p, t1.phase ≠ PPhase.claimed h p) :
    TDisj (threads.set i t1) := by
  intro j1 j2 h1 h2 hne h p hc1
  rw [List.length_set] at h1 h2
  rw [List.getElem_set] at hc1 ⊢
  split at hc1
  · exact absurd hc1 (hnc1 h p)
  · split
    · exact hnc1 h p
    · exact htd j1 j2 h1 h2 hne h p hc1

/-- A claim witness survives replacing a thread that held no claim. -/
theorem cover_witness_set {T : Type} {threads : List (PThread T)} (i : Nat)
    (t1 : PThread T)
    (hnc0 : ∀ h p, (hi : i < threads.length) →
      threads[i].phase ≠ PPhase.claimed h p)
    {a b : Nat} (j : Nat) (hj : j < threads.length)
    (hcl : threads[j].phase = PPhase.claimed a b) :
    ∃ j', ∃ _ : j' < (threads.set i t1).length,
      (threads.set i t1)[j'].phase = PPhase.claimed a b := by
  refine ⟨j, by simpa using hj, ?_⟩
  rw [List.getElem_set]
  split
  · next heq =>
    subst heq
    exact absurd hcl (hnc0 _ _ hj)
  · exact hcl

/-- Replacing a thread with one holding the same pending values does not
change the total pending multiset. -/
theorem sum_pending_set {T : Type} (threads : List (PThread T)) (i : Nat)
    (hilen : i < threads.length) (t1 : PThread T)
    (hpend : t1.pending = threads[i].pending) :
    ((threads.set i t1).map fun t => (t.pending : Multiset T)).sum
      = (threads.map fun t => (t.pending : Multiset T)).sum := by
  have hsum := sum_map_set threads i hilen t1 (fun t => (t.pending : Multiset T))
  rw [hpend] at hsum
  exact add_right_cancel hsum

/-- A step that changes neither the buffer nor the stepping thread's pending
values, and moves the thread between non-claim program points, preserves the
global invariant. -/
theorem cinv_thread_only {T : Type} {M : Multiset T} {s : CState T} (hs : CInv M s)
    (i : Nat) (hilen : i < s.threads.length) (t1 : PThread T)
    (hpend : t1.pending = s.threads[i].pending)
    (ht1 : ThreadInv s.buf t1)
    (hnc1 : ∀ h p, t1.phase ≠ PPhase.claimed h p)
    (hnc0 : ∀ h p, s.threads[i].phase ≠ PPhase.claimed h p) :
    CInv M ⟨s.buf, s.threads.set i t1⟩ := by
  refine ⟨hs.blen, hs.bseg, hs.bfull, hs.bafter, hs.bnone, ?_,
    TDisj_set_nonclaim hs.tdisj i t1 hnc1, ?_, ?_⟩
  · intro j hj
    rw [List.length_set] at hj
    rw [List.getElem_set]
    split
    · exact ht1
    · exact hs.tinv j hj
  · intro iSeg hiSeg p hp
    rcases hs.bcover iSeg hiSeg p hp with hsome | ⟨j, hj, hcl⟩
    · exact Or.inl hsome
    · exact Or.inr (cover_witness_set i t1 (fun h p _ => hnc0 h p) j hj hcl)
  · show (s.buf.abs.reduceOption : Multiset T)
      + ((s.threads.set i t1).map fun t => (t.pending : Multiset T)).sum = M
    rw [sum_pending_set s.threads i hilen t1 hpend]
    exact hs.acc

/-- The per-thread invariant is monotone under buffer changes that keep every
existing segment's capacity and array, never decrease a write cursor, and
never move the head pointer backwards or shrink the chain. -/
theorem ThreadInv_mono {T : Type} {buf buf' : RawBuffer T} {t : PThread T}
    (ht : ThreadInv buf t)
    (hlen : buf.segs.length ≤ buf'.segs.length)
    (hhead : buf.headIdx ≤ buf'.headIdx)
    (hcap : ∀ h, (hh : h < buf.segs.length) → (hh' : h < buf'.segs.length) →
      buf'.segs[h].capacity = buf.segs[h].capacity)
    (hfr : ∀ h, (hh : h < buf.segs.length) → (hh' : h < buf'.segs.length) →
      buf.segs[h].front ≤ buf'.segs[h].front)
    (harr : ∀ h, (hh : h < buf.segs.length) → (hh' : h < buf'.segs.length) →
      buf'.segs[h].array = buf.segs[h].array) :
    ThreadInv buf' t := by
  unfold ThreadInv at ht ⊢
  cases hp : t.phase <;> rw [hp] at ht <;> dsimp only at ht ⊢
  · next h =>
    exact ⟨by omega, by omega, ht.2.2⟩
  · next h pos =>
    obtain ⟨hh, ha, hb, hc, hd, he⟩ := ht
    refine ⟨by omega, ha.trans hhead, ?_, ?_, ?_, he⟩
    · rw [hcap h hh (by omega)]
      exact hb
    · have := hfr h hh (by omega)
      omega
    · rw [harr h hh (by omega)]
      exact hd
  · next h =>
    obtain ⟨hh, ha, hb, hc⟩ := ht
    refine ⟨by omega, ha.trans hhead, ?_, hc⟩
    rw [hcap h hh (by omega)]
    have := hfr h hh (by omega)
    omega
  · next h =>
    obtain ⟨hh, ha, hb, hc, hd⟩ := ht
    refine ⟨by omega, ha.trans hhead, ?_, by omega, hd⟩
    rw [hcap h hh (by omega)]
    have := hfr h hh (by omega)
    omega
  · next h =>
    obtain ⟨hh, ha, hb, hc⟩ := ht
    refine ⟨by omega, ha.trans hhead, ?_, hc⟩
    rw [hcap h hh (by omega)]
    have := hfr h hh (by omega)
    omega

/-- A successful head compare-and-swap preserves the global invariant. -/
theorem cinv_cas {T : Type} {M : Multiset T} {s : CState T} (hs : CInv M s)
    (i : Nat) (hilen : i < s.threads.length) (h : Nat)
    (hph : s.threads[i].phase = PPhase.gotNext h) (hcas : s.buf.headIdx = h) :
    CInv M ⟨⟨s.buf.segs, h + 1⟩,
      s.threads.set i ⟨PPhase.idle, s.threads[i].pending⟩⟩ := by
  have hti := hs.tinv i hilen
  unfold ThreadInv at hti
  rw [hph] at hti
  obtain ⟨hh, ha, hb, hcn, hd⟩ := hti
  refine ⟨hcn, hs.bseg, ?_, ?_, hs.bnone, ?_, ?_, ?_, ?_⟩
  · intro iS hiS hlt
    dsimp only at hiS hlt
    by_cases hc2 : iS < h
    · exact hs.bfull iS hiS (by omega)
    · have : iS = h := by omega
      subst this
      exact hb
  · intro iS hiS hgt
    dsimp only at hiS hgt
    exact hs.bafter iS hiS (by omega)
  · intro j hj
    rw [List.length_set] at hj
    rw [List.getElem_set]
    split
    · trivial
    · exact ThreadInv_mono (hs.tinv j hj) (le_refl _) (by dsimp only; omega)
        (fun _ _ _ => rfl) (fun _ _ _ => le_refl _) (fun _ _ _ => rfl)
  · exact TDisj_set_nonclaim hs.tdisj i _ (fun _ _ => by simp)
  · intro iSeg hiSeg p hp
    rcases hs.bcover iSeg hiSeg p hp with hsome | ⟨j, hj, hcl⟩
    · exact Or.inl hsome
    · exact Or.inr (cover_witness_set i _ (fun a b _ => by rw [hph]; simp) j hj hcl)
  · show (s.buf.abs.reduceOption : Multiset T)
      + ((s.threads.set i ⟨PPhase.idle, s.threads[i].pending⟩).map
          fun t => (t.pending : Multiset T)).sum = M
    rw [sum_pending_set s.threads i hilen
      ⟨PPhase.idle, s.threads[i].pending⟩ rfl]
    exact hs.acc

/-- A `fetch_add` that reserves an in-capacity index preserves the global
invariant: the thread acquires an exclusive claim on the reserved slot. -/
theorem cinv_fetch_claim {T : Type} {M : Multiset T} {s : CState T} (hs : CInv M s)
    (i : Nat) (hilen : i < s.threads.length) (h : Nat)
    (hph : s.threads[i].phase = PPhase.loadedHead h)
    (hh : h < s.buf.segs.length)
    (hpos : s.buf.segs[h].front < s.buf.segs[h].capacity) :
    CInv M ⟨⟨s.buf.segs.set h
        { s.buf.segs[h] with front := s.buf.segs[h].front + 1 }, s.buf.headIdx⟩,
      s.threads.set i
        { s.threads[i] with
          phase := PPhase.claimed h (s.buf.segs[h]).front }⟩ := by
  have hti := hs.tinv i hilen
  unfold ThreadInv at hti
  rw [hph] at hti
  obtain ⟨_, hhd, hpnd⟩ := hti
  obtain ⟨hlen_h, hcap_h, hback_h⟩ := hs.bseg h hh
  have hfacts : ∀ j, (hj : j < s.buf.segs.length) →
      (hj' : j < (s.buf.segs.set h
        { s.buf.segs[h] with front := s.buf.segs[h].front + 1 }).length) →
      (s.buf.segs.set h
        { s.buf.segs[h] with front := s.buf.segs[h].front + 1 })[j].capacity
          = s.buf.segs[j].capacity ∧
      (s.buf.segs.set h
        { s.buf.segs[h] with front := s.buf.segs[h].front + 1 })[j].array
          = s.buf.segs[j].array ∧
      (s.buf.segs.set h
        { s.buf.segs[h] with front := s.buf.segs[h].front + 1 })[j].back
          = s.buf.segs[j].back ∧
      s.buf.segs[j].front ≤ (s.buf.segs.set h
        { s.buf.segs[h] with front := s.buf.segs[h].front + 1 })[j].front := by
    intro j hj hj'
    rw [List.getElem_set]
    split
    · next heq =>
      subst heq
      exact ⟨rfl, rfl, rfl, by dsimp only; omega⟩
    · exact ⟨rfl, rfl, rfl, le_refl _⟩
  refine ⟨?_, ?_, ?_, ?_, ?_, ?_, ?_, ?_, ?_⟩
  · show s.buf.headIdx < (s.buf.segs.set h _).length
    rw [List.length_set]
    exact hs.blen
  · intro j hj
    dsimp only at hj ⊢
    rw [List.length_set] at hj
    obtain ⟨hc, ha, hb, _⟩ := hfacts j hj (by simpa using hj)
    rw [hc, ha, hb]
    exact hs.bseg j hj
  · intro j hj hlt
    dsimp only at hj hlt ⊢
    rw [List.length_set] at hj
    rw [List.getElem_set]
    split
    · next heq =>
      subst heq
      dsimp only
      have hold := hs.bfull h hj hlt
      omega
    · exact hs.bfull j hj hlt
  · intro j hj hgt
    dsimp only at hj hgt ⊢
    rw [List.length_set] at hj
    rw [List.getElem_set]
    split
    · next heq =>
      subst heq
      exact absurd hgt (by omega)
    · exact hs.bafter j hj hgt
  · intro j hj p hp1 hp2
    dsimp only at hj hp1 hp2 ⊢
    rw [List.length_set] at hj
    by_cases hej : h = j
    · subst hej
      rw [List.getElem_set, if_pos rfl] at hp1 hp2 ⊢
      dsimp only at hp1 hp2 ⊢
      exact hs.bnone h hh p (by omega) hp2
    · rw [List.getElem_set, if_neg hej] at hp1 hp2 ⊢
      exact hs.bnone j hj p hp1 hp2
  · intro j hj
    dsimp only at hj ⊢
    rw [List.length_set] at hj
    rw [List.getElem_set]
    split
    · next heq =>
      unfold ThreadInv
      dsimp only
      refine ⟨by rw [List.length_set]; exact hh, hhd, ?_, ?_, ?_, hpnd⟩
      · rw [List.getElem_set, if_pos rfl]
        dsimp only
        exact hpos
      · rw [List.getElem_set, if_pos rfl]
        dsimp only
        omega
      · rw [List.getElem_set, if_pos rfl]
        dsimp only
        exact hs.bnone h hh _ (le_refl _) hpos
    · refine ThreadInv_mono (hs.tinv j hj) (by rw [List.length_set])
        (le_refl _) ?_ ?_ ?_
      · intro a haa haa'
        exact (hfacts a haa haa').1
      · intro a haa haa'
        exact (hfacts a haa haa').2.2.2
      · intro a haa haa'
        exact (hfacts a haa haa').2.1
  · intro j1 j2 h1 h2 hne a b hc1
    rw [List.length_set] at h1 h2
    rw [List.getElem_set] at hc1 ⊢
    split at hc1
    · next heq1 =>
      dsimp only at hc1
      injection hc1 with e1 e2
      subst e1
      subst e2
      split
      · next heq2 => exact absurd (heq1.symm.trans heq2) hne
      · intro hcon
        have htj := hs.tinv j2 h2
        unfold ThreadInv at htj
        rw [hcon] at htj
        obtain ⟨_, _, _, hlt, _, _⟩ := htj
        omega
    · split
      · next heq2 =>
        dsimp only
        intro hcon
        injection hcon with e1 e2
        subst e1
        subst e2
        have htj := hs.tinv j1 h1
        unfold ThreadInv at htj
        rw [hc1] at htj
        obtain ⟨_, _, _, hlt, _, _⟩ := htj
        omega
      · exact hs.tdisj j1 j2 h1 h2 hne a b hc1
  · intro iS hiS p hp
    dsimp only at hiS hp ⊢
    rw [List.length_set] at hiS
    by_cases hej : h = iS
    · subst hej
      rw [List.getElem_set, if_pos rfl] at hp ⊢
      dsimp only at hp ⊢
      by_cases hpf : p < min s.buf.segs[h].front s.buf.segs[h].capacity
      · rcases hs.bcover h hh p hpf with hsome | ⟨j, hj, hcl⟩
        · exact Or.inl hsome
        · exact Or.inr (cover_witness_set i _
            (fun a b _ => by rw [hph]; simp) j hj hcl)
      · have hpeq : p = s.buf.segs[h].front := by omega
        refine Or.inr ⟨i, by simpa using hilen, ?_⟩
        rw [List.getElem_set, if_pos rfl]
        dsimp only
        rw [hpeq]
    · rw [List.getElem_set, if_neg hej] at hp ⊢
      rcases hs.bcover iS hiS p hp with hsome | ⟨j, hj, hcl⟩
      · exact Or.inl hsome
      · exact Or.inr (cover_witness_set i _
          (fun a b _ => by rw [hph]; simp) j hj hcl)
  · show ((RawBuffer.abs ⟨s.buf.segs.set h
        { s.buf.segs[h] with front := s.buf.segs[h].front + 1 },
        s.buf.headIdx⟩).reduceOption : Multiset T)
      + ((s.threads.set i
          { s.threads[i] with
            phase := PPhase.claimed h (s.buf.segs[h]).front }).map
          fun t => (t.pending : Multiset T)).sum = M
    have habs : (RawBuffer.abs ⟨s.buf.segs.set h
        { s.buf.segs[h] with front := s.buf.segs[h].front + 1 },
        s.buf.headIdx⟩).reduceOption = s.buf.abs.reduceOption := by
      rw [RawBuffer.abs_set _ _ _ hh, RawBuffer.abs_split' s.buf h hh,
        List.reduceOption_append, List.reduceOption_append,
        List.reduceOption_append, List.reduceOption_append,
        Segment.reduceOption_unread_bump _ hlen_h hback_h
          (fun hfc => hs.bnone h hh _ (le_refl _) hfc)]
    rw [habs, sum_pending_set s.threads i hilen
      { s.threads[i] with phase := PPhase.claimed h (s.buf.segs[h]).front } rfl]
    exact hs.acc

/-- A `fetch_add` that reserves an index at or past capacity (a wasted
reservation) preserves the global invariant. -/
theorem cinv_fetch_full {T : Type} {M : Multiset T} {s : CState T} (hs : CInv M s)
    (i : Nat) (hilen : i < s.threads.length) (h : Nat)
    (hph : s.threads[i].phase = PPhase.loadedHead h)
    (hh : h < s.buf.segs.length)
    (hpos : s.buf.segs[h].capacity ≤ s.buf.segs[h].front) :
    CInv M ⟨⟨s.buf.segs.set h
        { s.buf.segs[h] with front := s.buf.segs[h].front + 1 }, s.buf.headIdx⟩,
      s.threads.set i
        { s.threads[i] with phase := PPhase.fullSeen h }⟩ := by
  have hti := hs.tinv i hilen
  unfold ThreadInv at hti
  rw [hph] at hti
  obtain ⟨_, hhd, hpnd⟩ := hti
  obtain ⟨hlen_h, hcap_h, hback_h⟩ := hs.bseg h hh
  have hfacts : ∀ j, (hj : j < s.buf.segs.length) →
      (hj' : j < (s.buf.segs.set h
        { s.buf.segs[h] with front := s.buf.segs[h].front + 1 }).length) →
      (s.buf.segs.set h
        { s.buf.segs[h] with front := s.buf.segs[h].front + 1 })[j].capacity
          = s.buf.segs[j].capacity ∧
      (s.buf.segs.set h
        { s.buf.segs[h] with front := s.buf.segs[h].front + 1 })[j].array
          = s.buf.segs[j].array ∧
      (s.buf.segs.set h
        { s.buf.segs[h] with front := s.buf.segs[h].front + 1 })[j].back
          = s.buf.segs[j].back ∧
      s.buf.segs[j].front ≤ (s.buf.segs.set h
        { s.buf.segs[h] with front := s.buf.segs[h].front + 1 })[j].front := by
    intro j hj hj'
    rw [List.getElem_set]
    split
    · next heq =>
      subst heq
      exact ⟨rfl, rfl, rfl, by dsimp only; omega⟩
    · exact ⟨rfl, rfl, rfl, le_refl _⟩
  refine ⟨?_, ?_, ?_, ?_, ?_, ?_, ?_, ?_, ?_⟩
  · show s.buf.headIdx < (s.buf.segs.set h _).length
    rw [List.length_set]
    exact hs.blen
  · intro j hj
    dsimp only at hj ⊢
    rw [List.length_set] at hj
    obtain ⟨hc, ha, hb, _⟩ := hfacts j hj (by simpa using hj)
    rw [hc, ha, hb]
    exact hs.bseg j hj
  · intro j hj hlt
    dsimp only at hj hlt ⊢
    rw [List.length_set] at hj
    rw [List.getElem_set]
    split
    · next heq =>
      subst heq
      dsimp only
      have hold := hs.bfull h hj hlt
      omega
    · exact hs.bfull j hj hlt
  · intro j hj hgt
    dsimp only at hj hgt ⊢
    rw [List.length_set] at hj
    rw [List.getElem_set]
    split
    · next heq =>
      subst heq
      exact absurd hgt (by omega)
    · exact hs.bafter j hj hgt
  · intro j hj p hp1 hp2
    dsimp only at hj hp1 hp2 ⊢
    rw [List.length_set] at hj
    by_cases hej : h = j
    · subst hej
      rw [List.getElem_set, if_pos rfl] at hp1 hp2 ⊢
      dsimp only at hp1 hp2 ⊢
      exact hs.bnone h hh p (by omega) hp2
    · rw [List.getElem_set, if_neg hej] at hp1 hp2 ⊢
      exact hs.bnone j hj p hp1 hp2
  · intro j hj
    dsimp only at hj ⊢
    rw [List.length_set] at hj
    rw [List.getElem_set]
    split
    · next heq =>
      unfold ThreadInv
      dsimp only
      refine ⟨by rw [List.length_set]; exact hh, hhd, ?_, hpnd⟩
      rw [List.getElem_set, if_pos rfl]
      dsimp only
      omega
    · refine ThreadInv_mono (hs.tinv j hj) (by rw [List.length_set])
        (le_refl _) ?_ ?_ ?_
      · intro a haa haa'
        exact (hfacts a haa haa').1
      · intro a haa haa'
        exact (hfacts a haa haa').2.2.2
      · intro a haa haa'
        exact (hfacts a haa haa').2.1
  · exact TDisj_set_nonclaim hs.tdisj i _ (fun _ _ => by simp)
  · intro iS hiS p hp
    dsimp only at hiS hp ⊢
    rw [List.length_set] at hiS
    by_cases hej : h = iS
    · subst hej
      rw [List.getElem_set, if_pos rfl] at hp ⊢
      dsimp only at hp ⊢
      have hpf : p < min s.buf.segs[h].front s.buf.segs[h].capacity := by omega
      rcases hs.bcover h hh p hpf with hsome | ⟨j, hj, hcl⟩
      · exact Or.inl hsome
      · exact Or.inr (cover_witness_set i _
          (fun a b _ => by rw [hph]; simp) j hj hcl)
    · rw [List.getElem_set, if_neg hej] at hp ⊢
      rcases hs.bcover iS hiS p hp with hsome | ⟨j, hj, hcl⟩
      · exact Or.inl hsome
      · exact Or.inr (cover_witness_set i _
          (fun a b _ => by rw [hph]; simp) j hj hcl)
  · show ((RawBuffer.abs ⟨s.buf.segs.set h
        { s.buf.segs[h] with front := s.buf.segs[h].front + 1 },
        s.buf.headIdx⟩).reduceOption : Multiset T)
      + ((s.threads.set i
          { s.threads[i] with phase := PPhase.fullSeen h }).map
          fun t => (t.pending : Multiset T)).sum = M
    have habs : (RawBuffer.abs ⟨s.buf.segs.set h
        { s.buf.segs[h] with front := s.buf.segs[h].front + 1 },
        s.buf.headIdx⟩).reduceOption = s.buf.abs.reduceOption := by
      rw [RawBuffer.abs_set _ _ _ hh, RawBuffer.abs_split' s.buf h hh,
        List.reduceOption_append, List.reduceOption_append,
        List.reduceOption_append, List.reduceOption_append,
        Segment.reduceOption_unread_bump _ hlen_h hback_h
          (fun hfc => hs.bnone h hh _ (le_refl _) hfc)]
    rw [habs, sum_pending_set s.threads i hilen
      { s.threads[i] with phase := PPhase.fullSeen h } rfl]
    exact hs.acc

/-- Writing the value into the exclusively claimed slot preserves the global
invariant: the pending value moves into the buffer. -/
theorem cinv_write {T : Type} {M : Multiset T} {s : CState T} (hs : CInv M s)
    (i : Nat) (hilen : i < s.threads.length) (h pos : Nat) (v : T)
    (rest : List T)
    (hph : s.threads[i].phase = PPhase.claimed h pos)
    (hpend : s.threads[i].pending = v :: rest)
    (hh : h < s.buf.segs.length) :
    CInv M ⟨⟨s.buf.segs.set h
        { s.buf.segs[h] with
          array := (s.buf.segs[h]).array.set pos (some v) }, s.buf.headIdx⟩,
      s.threads.set i ⟨PPhase.idle, rest⟩⟩ := by
  have hti := hs.tinv i hilen
  unfold ThreadInv at hti
  rw [hph] at hti
  obtain ⟨_, hhd, hpc, hpf, hslot, _⟩ := hti
  obtain ⟨hlen_h, hcap_h, hback_h⟩ := hs.bseg h hh
  have hfacts : ∀ j, (hj : j < s.buf.segs.length) →
      (hj' : j < (s.buf.segs.set h
        { s.buf.segs[h] with
          array := (s.buf.segs[h]).array.set pos (some v) }).length) →
      (s.buf.segs.set h
        { s.buf.segs[h] with
          array := (s.buf.segs[h]).array.set pos (some v) })[j].capacity
          = s.buf.segs[j].capacity ∧
      (s.buf.segs.set h
        { s.buf.segs[h] with
          array := (s.buf.segs[h]).array.set pos (some v) })[j].back
          = s.buf.segs[j].back ∧
      (s.buf.segs.set h
        { s.buf.segs[h] with
          array := (s.buf.segs[h]).array.set pos (some v) })[j].front
          = s.buf.segs[j].front ∧
      (s.buf.segs.set h
        { s.buf.segs[h] with
          array := (s.buf.segs[h]).array.set pos (some v) })[j].array.length
          = s.buf.segs[j].array.length := by
    intro j hj hj'
    rw [List.getElem_set]
    split
    · next heq =>
      subst heq
      exact ⟨rfl, rfl, rfl, by dsimp only; rw [List.length_set]⟩
    · exact ⟨rfl, rfl, rfl, rfl⟩
  refine ⟨?_, ?_, ?_, ?_, ?_, ?_, ?_, ?_, ?_⟩
  · show s.buf.headIdx < (s.buf.segs.set h _).length
    rw [List.length_set]
    exact hs.blen
  · intro j hj
    dsimp only at hj ⊢
    rw [List.length_set] at hj
    obtain ⟨hc, hb, _, ha⟩ := hfacts j hj (by simpa using hj)
    rw [hc, ha, hb]
    exact hs.bseg j hj
  · intro j hj hlt
    dsimp only at hj hlt ⊢
    rw [List.length_set] at hj
    obtain ⟨hc, _, hf, _⟩ := hfacts j hj (by simpa using hj)
    rw [hc, hf]
    exact hs.bfull j hj hlt
  · intro j hj hgt
    dsimp only at hj hgt ⊢
    rw [List.length_set] at hj
    obtain ⟨_, _, hf, _⟩ := hfacts j hj (by simpa using hj)
    rw [hf]
    exact hs.bafter j hj hgt
  · intro j hj p hp1 hp2
    dsimp only at hj hp1 hp2 ⊢
    rw [List.length_set] at hj
    by_cases hej : h = j
    · subst hej
      rw [List.getElem_set, if_pos rfl] at hp1 hp2 ⊢
      dsimp only at hp1 hp2 ⊢
      rw [List.getD_eq_getElem?_getD, List.getElem?_set,
        if_neg (by omega : ¬ pos = p)]
      rw [← List.getD_eq_getElem?_getD]
      exact hs.bnone h hh p hp1 hp2
    · rw [List.getElem_set, if_neg hej] at hp1 hp2 ⊢
      exact hs.bnone j hj p hp1 hp2
  · intro j hj
    dsimp only at hj ⊢
    rw [List.length_set] at hj
    rw [List.getElem_set]
    split
    · next heq =>
      unfold ThreadInv
      dsimp only
    · next hne =>
      have htj := hs.tinv j hj
      unfold ThreadInv at htj ⊢
      cases hpj : s.threads[j].phase <;> rw [hpj] at htj <;> dsimp only at htj ⊢
      · next a =>
        refine ⟨by rw [List.length_set]; omega, htj.2.1, htj.2.2⟩
      · next a b =>
        obtain ⟨haa, h1, h2, h3, h4, h5⟩ := htj
        have hab : ¬ (a = h ∧ b = pos) := by
          rintro ⟨rfl, rfl⟩
          exact hs.tdisj j i hj hilen (fun hcon => hne hcon.symm) a b hpj hph
        refine ⟨by rw [List.length_set]; omega, h1, ?_, ?_, ?_, h5⟩
        · obtain ⟨hc, _, _, _⟩ := hfacts a haa (by rw [List.length_set]; omega)
          rw [hc]
          exact h2
        · obtain ⟨_, _, hf, _⟩ := hfacts a haa (by rw [List.length_set]; omega)
          rw [hf]
          exact h3
        · rw [List.getElem_set]
          split
          · next heq2 =>
            subst heq2
            dsimp only
            rw [List.getD_eq_getElem?_getD, List.getElem?_set]
            rw [if_neg (by intro hcon; exact hab ⟨rfl, hcon.symm⟩)]
            rw [← List.getD_eq_getElem?_getD]
            exact h4
          · exact h4
      · next a =>
        obtain ⟨haa, h1, h2, h3⟩ := htj
        refine ⟨by rw [List.length_set]; omega, h1, ?_, h3⟩
        obtain ⟨hc, _, hf, _⟩ := hfacts a haa (by rw [List.length_set]; omega)
        rw [hc, hf]
        exact h2
      · next a =>
        obtain ⟨haa, h1, h2, h3, h4⟩ := htj
        refine ⟨by rw [List.length_set]; omega, h1, ?_, by rw [List.length_set]; omega, h4⟩
        obtain ⟨hc, _, hf, _⟩ := hfacts a haa (by rw [List.length_set]; omega)
        rw [hc, hf]
        exact h2
      · next a =>
        obtain ⟨haa, h1, h2, h3⟩ := htj
        refine ⟨by rw [List.length_set]; omega, h1, ?_, h3⟩
        obtain ⟨hc, _, hf, _⟩ := hfacts a haa (by rw [List.length_set]; omega)
        rw [hc, hf]
        exact h2
  · exact TDisj_set_nonclaim hs.tdisj i _ (fun _ _ => by simp)
  · intro iS hiS p hp
    dsimp only at hiS hp ⊢
    rw [List.length_set] at hiS
    by_cases hej : h = iS
    · subst hej
      rw [List.getElem_set, if_pos rfl] at hp ⊢
      dsimp only at hp ⊢
      by_cases hpp : pos = p
      · subst hpp
        left
        rw [List.getD_eq_getElem?_getD, List.getElem?_set, if_pos rfl,
          if_pos (by omega : pos < (s.buf.segs[h]).array.length)]
        rfl
      · rcases hs.bcover h hh p hp with hsome | ⟨j, hj, hcl⟩
        · left
          rw [List.getD_eq_getElem?_getD, List.getElem?_set, if_neg hpp]
          rw [← List.getD_eq_getElem?_getD]
          exact hsome
        · right
          have hji : j ≠ i := by
            intro hcon
            subst hcon
            rw [hph] at hcl
            injection hcl with e1 e2
            exact hpp e2
          refine ⟨j, by simpa using hj, ?_⟩
          rw [List.getElem_set, if_neg (fun hcon => hji hcon.symm)]
          exact hcl
    · rw [List.getElem_set, if_neg hej] at hp ⊢
      rcases hs.bcover iS hiS p hp with hsome | ⟨j, hj, hcl⟩
      · exact Or.inl hsome
      · right
        have hji : j ≠ i := by
          intro hcon
          subst hcon
          rw [hph] at hcl
          injection hcl with e1 e2
          exact hej e1
        refine ⟨j, by simpa using hj, ?_⟩
        rw [List.getElem_set, if_neg (fun hcon => hji hcon.symm)]
        exact hcl
  · show ((RawBuffer.abs ⟨s.buf.segs.set h
        { s.buf.segs[h] with
          array := (s.buf.segs[h]).array.set pos (some v) },
        s.buf.headIdx⟩).reduceOption : Multiset T)
      + ((s.threads.set i ⟨PPhase.idle, rest⟩).map
          fun t => (t.pending : Multiset T)).sum = M
    have habs : ((RawBuffer.abs ⟨s.buf.segs.set h
        { s.buf.segs[h] with
          array := (s.buf.segs[h]).array.set pos (some v) },
        s.buf.headIdx⟩).reduceOption : Multiset T)
        = {v} + (s.buf.abs.reduceOption : Multiset T) := by
      rw [RawBuffer.abs_set _ _ _ hh, RawBuffer.abs_split' s.buf h hh,
        List.reduceOption_append, List.reduceOption_append,
        List.reduceOption_append, List.reduceOption_append,
        ← Multiset.coe_add, ← Multiset.coe_add,
        ← Multiset.coe_add, ← Multiset.coe_add,
        Segment.reduceOption_unread_write _ pos v hlen_h hback_h hpc hpf hslot,
        ← Multiset.singleton_add]
      abel
    rw [habs]
    have hsum := sum_map_set s.threads i hilen ⟨PPhase.idle, rest⟩
      (fun t => (t.pending : Multiset T))
    rw [hpend] at hsum
    have hvrest : ((v :: rest : List T) : Multiset T) = {v} + (rest : Multiset T) := by
      rw [Multiset.singleton_add]
      rfl
    rw [hvrest] at hsum
    have hcancel : ((s.threads.set i ⟨PPhase.idle, rest⟩).map
          fun t => (t.pending : Multiset T)).sum + {v}
        = (s.threads.map fun t => (t.pending : Multiset T)).sum := by
      apply add_right_cancel (b := (rest : Multiset T))
      rw [add_assoc, add_comm ({v} : Multiset T) (rest : Multiset T), ← add_assoc]
      rw [add_comm _ ({v} + (rest : Multiset T))] at hsum
      rw [add_comm ({v} + (rest : Multiset T)) _] at hsum
      calc ((s.threads.set i ⟨PPhase.idle, rest⟩).map
            fun t => (t.pending : Multiset T)).sum + (rest : Multiset T) + {v}
          = ((s.threads.set i ⟨PPhase.idle, rest⟩).map
            fun t => (t.pending : Multiset T)).sum + ({v} + (rest : Multiset T)) := by
            abel
        _ = (s.threads.map fun t => (t.pending : Multiset T)).sum
            + (rest : Multiset T) := hsum
    calc {v} + (s.buf.abs.reduceOption : Multiset T)
          + ((s.threads.set i ⟨PPhase.idle, rest⟩).map
            fun t => (t.pending : Multiset T)).sum
        = (s.buf.abs.reduceOption : Multiset T)
          + (((s.threads.set i ⟨PPhase.idle, rest⟩).map
            fun t => (t.pending : Multiset T)).sum + {v}) := by abel
      _ = (s.buf.abs.reduceOption : Multiset T)
          + (s.threads.map fun t => (t.pending : Multiset T)).sum := by
            rw [hcancel]
      _ = M := hs.acc

/-- Allocating a fresh segment and appending it at the end of the chain
preserves the global invariant. -/
theorem cinv_append {T : Type} {M : Multiset T} {s : CState T} (hs : CInv M s)
    (i : Nat) (hilen : i < s.threads.length) (h : Nat)
    (hph : s.threads[i].phase = PPhase.sawNull h)
    (hh : h < s.buf.segs.length) :
    CInv M ⟨⟨s.buf.segs
        ++ [new_segment T (min MAX_SIZE (s.buf.segs[h].capacity * 2))],
        s.buf.headIdx⟩,
      s.threads.set i ⟨PPhase.idle, s.threads[i].pending⟩⟩ := by
  obtain ⟨_, hcap_h, _⟩ := hs.bseg h hh
  have hmax : MAX_SIZE = 262144 := rfl
  have hcap' : 1 ≤ min MAX_SIZE (s.buf.segs[h].capacity * 2) := by
    rw [hmax]
    omega
  have hfacts : ∀ j, (hj : j < s.buf.segs.length) →
      (hj' : j < (s.buf.segs
        ++ [new_segment T (min MAX_SIZE (s.buf.segs[h].capacity * 2))]).length) →
      (s.buf.segs
        ++ [new_segment T (min MAX_SIZE (s.buf.segs[h].capacity * 2))])[j]
        = s.buf.segs[j] := by
    intro j hj hj'
    rw [getElem_append_singleton]
    rw [dif_pos hj]
  refine ⟨?_, ?_, ?_, ?_, ?_, ?_, ?_, ?_, ?_⟩
  · show s.buf.headIdx < (s.buf.segs ++ _).length
    rw [List.length_append]
    have := hs.blen
    simp
    omega
  · intro j hj
    dsimp only at hj ⊢
    rw [List.length_append, List.length_singleton] at hj
    rw [getElem_append_singleton]
    split
    · next hq => exact hs.bseg j hq
    · exact ⟨by simp [new_segment], hcap', rfl⟩
  · intro j hj hlt
    dsimp only at hj hlt ⊢
    rw [List.length_append, List.length_singleton] at hj
    rw [getElem_append_singleton]
    split
    · next hq => exact hs.bfull j hq hlt
    · next hq =>
      have := hs.blen
      omega
  · intro j hj hgt
    dsimp only at hj hgt ⊢
    rw [List.length_append, List.length_singleton] at hj
    rw [getElem_append_singleton]
    split
    · next hq => exact hs.bafter j hq hgt
    · rfl
  · intro j hj p hp1 hp2
    dsimp only at hj hp1 hp2 ⊢
    rw [List.length_append, List.length_singleton] at hj
    rw [getElem_append_singleton] at hp1 hp2 ⊢
    by_cases hq : j < s.buf.segs.length
    · rw [dif_pos hq] at hp1 hp2 ⊢
      exact hs.bnone j hq p hp1 hp2
    · rw [dif_neg hq] at hp1 hp2 ⊢
      show (List.replicate _ (none : Option T)).getD p none = none
      rw [List.getD_eq_getElem?_getD, List.getElem?_replicate]
      split <;> rfl
  · intro j hj
    dsimp only at hj ⊢
    rw [List.length_set] at hj
    rw [List.getElem_set]
    split
    · next heq =>
      unfold ThreadInv
      dsimp only
    · refine ThreadInv_mono (hs.tinv j hj) ?_ (le_refl _) ?_ ?_ ?_
      · rw [List.length_append]
        omega
      · intro a haa haa'
        rw [hfacts a haa haa']
      · intro a haa haa'
        rw [hfacts a haa haa']
      · intro a haa haa'
        rw [hfacts a haa haa']
  · exact TDisj_set_nonclaim hs.tdisj i _ (fun _ _ => by simp)
  · intro iS hiS p hp
    dsimp only at hiS hp ⊢
    rw [List.length_append, List.length_singleton] at hiS
    rw [getElem_append_singleton] at hp ⊢
    by_cases hq : iS < s.buf.segs.length
    · rw [dif_pos hq] at hp ⊢
      rcases hs.bcover iS hq p hp with hsome | ⟨j, hj, hcl⟩
      · exact Or.inl hsome
      · exact Or.inr (cover_witness_set i _
          (fun a b _ => by rw [hph]; simp) j hj hcl)
    · rw [dif_neg hq] at hp
      exact absurd hp (by simp [new_segment])
  · show ((RawBuffer.abs ⟨s.buf.segs
        ++ [new_segment T (min MAX_SIZE (s.buf.segs[h].capacity * 2))],
        s.buf.headIdx⟩).reduceOption : Multiset T)
      + ((s.threads.set i ⟨PPhase.idle, s.threads[i].pending⟩).map
          fun t => (t.pending : Multiset T)).sum = M
    have habs : RawBuffer.abs ⟨s.buf.segs
        ++ [new_segment T (min MAX_SIZE (s.buf.segs[h].capacity * 2))],
        s.buf.headIdx⟩ = s.buf.abs := by
      rw [RawBuffer.abs_append _ _ _ s.buf.headIdx 0]
      rw [show RawBuffer.abs (⟨[new_segment T
          (min MAX_SIZE (s.buf.segs[h].capacity * 2))], 0⟩ : RawBuffer T) = [] by
        simp [RawBuffer.abs, Segment.unread_new_segment]]
      rw [List.append_nil]
    rw [habs, sum_pending_set s.threads i hilen
      ⟨PPhase.idle, s.threads[i].pending⟩ rfl]
    exact hs.acc

/-- One atomic step of any thread preserves the global invariant. -/
theorem cstep_inv {T : Type} {M : Multiset T} {s s' : CState T} (hs : CInv M s)
    (i : Nat) (hstep : cstep s i = some s') : CInv M s' := by
  unfold cstep at hstep
  cases hti : s.threads[i]? with
  | none =>
    rw [hti] at hstep
    exact absurd hstep (by simp)
  | some t =>
    rw [hti] at hstep
    obtain ⟨hilen, hteq⟩ := List.getElem?_eq_some.mp hti
    subst hteq
    dsimp only at hstep
    cases hph : s.threads[i].phase with
    | idle =>
      cases hpd : s.threads[i].pending with
      | nil =>
        have hts : tstep s.buf s.threads[i] = none := by
          unfold tstep
          rw [hph, hpd]
        rw [hts] at hstep
        exact absurd hstep (by simp)
      | cons v rest =>
        have hts : tstep s.buf s.threads[i] = some (s.buf,
            ⟨PPhase.loadedHead s.buf.headIdx, v :: rest⟩) := by
          unfold tstep
          rw [hph, hpd]
        rw [hts] at hstep
        dsimp only at hstep
        injection hstep with heq
        subst heq
        refine cinv_thread_only hs i hilen _ hpd.symm ?_ (fun _ _ => by simp) ?_
        · unfold ThreadInv
          dsimp only
          exact ⟨hs.blen, le_refl _, by simp⟩
        · intro a b
          rw [hph]
          simp
    | loadedHead h =>
      cases hsg : s.buf.segs[h]? with
      | none =>
        have hts : tstep s.buf s.threads[i] = none := by
          unfold tstep
          rw [hph]
          dsimp only
          rw [hsg]
        rw [hts] at hstep
        exact absurd hstep (by simp)
      | some seg =>
        obtain ⟨hh, hseq⟩ := List.getElem?_eq_some.mp hsg
        subst hseq
        by_cases hpos : s.buf.segs[h].front < s.buf.segs[h].capacity
        · have hts : tstep s.buf s.threads[i] = some (⟨s.buf.segs.set h
              { s.buf.segs[h] with front := s.buf.segs[h].front + 1 },
              s.buf.headIdx⟩,
              { s.threads[i] with
                phase := PPhase.claimed h (s.buf.segs[h]).front }) := by
            unfold tstep
            rw [hph]
            dsimp only
            rw [hsg]
            dsimp only
            rw [if_pos hpos]
          rw [hts] at hstep
          dsimp only at hstep
          injection hstep with heq
          subst heq
          exact cinv_fetch_claim hs i hilen h hph hh hpos
        · have hts : tstep s.buf s.threads[i] = some (⟨s.buf.segs.set h
              { s.buf.segs[h] with front := s.buf.segs[h].front + 1 },
              s.buf.headIdx⟩,
              { s.threads[i] with phase := PPhase.fullSeen h }) := by
            unfold tstep
            rw [hph]
            dsimp only
            rw [hsg]
            dsimp only
            rw [if_neg hpos]
          rw [hts] at hstep
          dsimp only at hstep
          injection hstep with heq
          subst heq
          exact cinv_fetch_full hs i hilen h hph hh (by omega)
    | claimed h pos =>
      cases hpd : s.threads[i].pending with
      | nil =>
        have hts : tstep s.buf s.threads[i] = none := by
          unfold tstep
          rw [hph, hpd]
        rw [hts] at hstep
        exact absurd hstep (by simp)
      | cons v rest =>
        cases hsg : s.buf.segs[h]? with
        | none =>
          have hts : tstep s.buf s.threads[i] = none := by
            unfold tstep
            rw [hph, hpd]
            dsimp only
            rw [hsg]
          rw [hts] at hstep
          exact absurd hstep (by simp)
        | some seg =>
          obtain ⟨hh, hseq⟩ := List.getElem?_eq_some.mp hsg
          subst hseq
          have hts : tstep s.buf s.threads[i] = some (⟨s.buf.segs.set h
              { s.buf.segs[h] with
                array := (s.buf.segs[h]).array.set pos (some v) },
              s.buf.headIdx⟩, ⟨PPhase.idle, rest⟩) := by
            unfold tstep
            rw [hph, hpd]
            dsimp only
            rw [hsg]
          rw [hts] at hstep
          dsimp only at hstep
          injection hstep with heq
          subst heq
          exact cinv_write hs i hilen h pos v rest hph hpd hh
    | fullSeen h =>
      by_cases hnx : h + 1 < s.buf.segs.length
      · have hts : tstep s.buf s.threads[i] = some (s.buf,
            { s.threads[i] with phase := PPhase.gotNext h }) := by
          unfold tstep
          rw [hph]
          dsimp only
          rw [if_pos hnx]
        rw [hts] at hstep
        dsimp only at hstep
        injection hstep with heq
        subst heq
        have hti2 := hs.tinv i hilen
        unfold ThreadInv at hti2
        rw [hph] at hti2
        obtain ⟨hh, ha, hb, hc⟩ := hti2
        refine cinv_thread_only hs i hilen _ rfl ?_ (fun _ _ => by simp) ?_
        · unfold ThreadInv
          dsimp only
          exact ⟨hh, ha, hb, hnx, hc⟩
        · intro a b
          rw [hph]
          simp
      · have hts : tstep s.buf s.threads[i] = some (s.buf,
            { s.threads[i] with phase := PPhase.sawNull h }) := by
          unfold tstep
          rw [hph]
          dsimp only
          rw [if_neg hnx]
        rw [hts] at hstep
        dsimp only at hstep
        injection hstep with heq
        subst heq
        have hti2 := hs.tinv i hilen
        unfold ThreadInv at hti2
        rw [hph] at hti2
        obtain ⟨hh, ha, hb, hc⟩ := hti2
        refine cinv_thread_only hs i hilen _ rfl ?_ (fun _ _ => by simp) ?_
        · unfold ThreadInv
          dsimp only
          exact ⟨hh, ha, hb, hc⟩
        · intro a b
          rw [hph]
          simp
    | gotNext h =>
      by_cases hcas : s.buf.headIdx = h
      · have hts : tstep s.buf s.threads[i] = some (⟨s.buf.segs, h + 1⟩,
            { s.threads[i] with phase := PPhase.idle }) := by
          unfold tstep
          rw [hph]
          dsimp only
          rw [if_pos hcas]
        rw [hts] at hstep
        dsimp only at hstep
        injection hstep with heq
        subst heq
        exact cinv_cas hs i hilen h hph hcas
      · have hts : tstep s.buf s.threads[i] = some (s.buf,
            { s.threads[i] with phase := PPhase.idle }) := by
          unfold tstep
          rw [hph]
          dsimp only
          rw [if_neg hcas]
        rw [hts] at hstep
        dsimp only at hstep
        injection hstep with heq
        subst heq
        refine cinv_thread_only hs i hilen _ rfl ?_ (fun _ _ => by simp) ?_
        · unfold ThreadInv
          dsimp only
        · intro a b
          rw [hph]
          simp
    | sawNull h =>
      cases hsg : s.buf.segs[h]? with
      | none =>
        have hts : tstep s.buf s.threads[i] = none := by
          unfold tstep
          rw [hph]
          dsimp only
          rw [hsg]
        rw [hts] at hstep
        exact absurd hstep (by simp)
      | some seg =>
        obtain ⟨hh, hseq⟩ := List.getElem?_eq_some.mp hsg
        subst hseq
        have hts : tstep s.buf s.threads[i] = some (⟨s.buf.segs
            ++ [new_segment T (min MAX_SIZE ((s.buf.segs[h]).capacity * 2))],
            s.buf.headIdx⟩,
            { s.threads[i] with phase := PPhase.idle }) := by
          unfold tstep
          rw [hph]
          dsimp only
          rw [hsg]
        rw [hts] at hstep
        dsimp only at hstep
        injection hstep with heq
        subst heq
        exact cinv_append hs i hilen h hph hh

/-- Running a whole scheduler script preserves the global invariant. -/
theorem runScript_inv {T : Type} {M : Multiset T} (script : List Nat) :
    ∀ {s s' : CState T}, CInv M s → runScript s script = some s' → CInv M s' := by
  induction script with
  | nil =>
    intro s s' hs hrun
    unfold runScript at hrun
    injection hrun with h
    subst h
    exact hs
  | cons i is ih =>
    intro s s' hs hrun
    unfold runScript at hrun
    cases hstep : cstep s i with
    | none =>
      rw [hstep] at hrun
      exact absurd hrun (by simp)
    | some s1 =>
      rw [hstep] at hrun
      exact ih (cstep_inv hs i hstep) hrun

theorem sum_coe_flatten {T : Type} (vss : List (List T)) :
    (vss.map fun vs => ((vs : List T) : Multiset T)).sum
      = ((vss.flatten : List T) : Multiset T) := by
  induction vss with
  | nil => rfl
  | cons vs rest ih =>
    simp only [List.map_cons, List.sum_cons, List.flatten_cons, ih,
      ← Multiset.coe_add]

/-- The initial concurrent state satisfies the global invariant, with the
accounting multiset being all values handed to the producers. -/
theorem cinit_inv {T : Type} (vss : List (List T)) :
    CInv ((vss.flatten : List T) : Multiset T) (cinit vss) := by
  refine ⟨?_, ?_, ?_, ?_, ?_, ?_, ?_, ?_, ?_⟩
  · show 0 < 1
    omega
  · intro i hi
    have hi0 : i = 0 := by
      have h1 : (cinit vss).buf.segs.length = 1 := rfl
      omega
    subst hi0
    refine ⟨?_, ?_, ?_⟩
    · show (List.replicate STARTING_SIZE (none : Option T)).length = STARTING_SIZE
      simp
    · show 1 ≤ STARTING_SIZE
      unfold STARTING_SIZE
      omega
    · rfl
  · intro i hi hlt
    exact absurd hlt (by simp [cinit, RawBuffer.new])
  · intro i hi hgt
    have h1 : (cinit vss).buf.segs.length = 1 := rfl
    have : (0 : Nat) < i := hgt
    omega
  · intro i hi p hfp hpc
    have hi0 : i = 0 := by
      have h1 : (cinit vss).buf.segs.length = 1 := rfl
      omega
    subst hi0
    show (List.replicate STARTING_SIZE (none : Option T)).getD p none = none
    rw [List.getD_eq_getElem?_getD, List.getElem?_replicate]
    split <;> rfl
  · intro j hj
    have hjl : j < vss.length := by
      have h1 : (cinit vss).threads.length = vss.length := by
        simp [cinit]
      omega
    have hth : (cinit vss).threads[j] = ⟨PPhase.idle, vss[j]⟩ := by
      show (vss.map fun vs => (⟨PPhase.idle, vs⟩ : PThread T))[j] = _
      rw [List.getElem_map]
    unfold ThreadInv
    rw [hth]
    trivial
  · unfold TDisj
    intro j1 j2 h1 h2 hne h p hc
    have hjl : j1 < vss.length := by
      have hl : (cinit vss).threads.length = vss.length := by
        simp [cinit]
      omega
    have hth : (cinit vss).threads[j1] = ⟨PPhase.idle, vss[j1]⟩ := by
      show (vss.map fun vs => (⟨PPhase.idle, vs⟩ : PThread T))[j1] = _
      rw [List.getElem_map]
    rw [hth] at hc
    simp at hc
  · intro i hi p hp
    have hi0 : i = 0 := by
      have h1 : (cinit vss).buf.segs.length = 1 := rfl
      omega
    subst hi0
    have hf : (cinit vss).buf.segs[0].front = 0 := rfl
    rw [hf] at hp
    simp at hp
  · show ((RawBuffer.new T).abs.reduceOption : Multiset T)
        + ((vss.map fun vs => (⟨PPhase.idle, vs⟩ : PThread T)).map
            fun t => ((t.pending : List T) : Multiset T)).sum
        = ((vss.flatten : List T) : Multiset T)
    rw [RawBuffer.abs_new, List.map_map]
    show (0 : Multiset T)
        + (vss.map fun vs => ((vs : List T) : Multiset T)).sum = _
    rw [zero_add]
    exact sum_coe_flatten vss

/-- Once every producer has finished, the concurrent global invariant yields
the sequential reachability invariant for the shared buffer. -/
theorem CInv.allDone_Inv {T : Type} {M : Multiset T} {s : CState T}
    (hs : CInv M s) (hd : AllDone s) : Inv s.buf := by
  refine ⟨hs.blen, ?_⟩
  intro i hi
  obtain ⟨hlen, hcap, hback⟩ := hs.bseg i hi
  refine ⟨⟨hlen, hcap, by omega, by omega, ?_⟩, ?_, ?_, ?_⟩
  · intro j hjc hjb hjf
    have hcov := hs.bcover i hi j (by omega)
    cases hcov with
    | inl h => exact h
    | inr h =>
      obtain ⟨t, ht, hph⟩ := h
      have hidle := hd s.threads[t] (s.threads.getElem_mem ht)
      rw [hidle.1] at hph
      exact absurd hph (by simp)
  · intro hlt
    exact hs.bfull i hi hlt
  · intro hgt
    exact ⟨hs.bafter i hi hgt, hback⟩
  · intro _
    exact hback

/-- Once every producer has finished, the values written into the buffer are
exactly (as a multiset) the values the producers were given. -/
theorem CInv.allDone_acc {T : Type} {M : Multiset T} {s : CState T}
    (hs : CInv M s) (hd : AllDone s) :
    (s.buf.abs.reduceOption : Multiset T) = M := by
  have hz : (s.threads.map fun t => ((t.pending : List T) : Multiset T)).sum
      = 0 := by
    rw [List.sum_eq_zero]
    intro x hx
    rw [List.mem_map] at hx
    obtain ⟨t, ht, rfl⟩ := hx
    rw [(hd t ht).2]
    rfl
  have hacc := hs.acc
  rw [hz, add_zero] at hacc
  exact hacc

theorem reduceOption_map_some {T : Type} (l : List (Option T))
    (h : ∀ x ∈ l, x.isSome) : l.reduceOption.map some = l := by
  induction l with
  | nil => rfl
  | cons x xs ih =>
    cases x with
    | none => exact absurd (h none (by simp)) (by simp)
    | some v =>
      rw [List.reduceOption_cons_of_some]
      simp only [List.map_cons]
      rw [ih fun y hy => h y (by simp [hy])]

/-- C9: with several producer threads concurrently pushing their value lists
(their atomic operations interleaved by an arbitrary scheduler script) and no
concurrent consumer, once every producer has returned, a single-threaded drain
returns exactly the written values, and those values are — as a multiset —
exactly the values the producers were given: every value appears exactly once,
with no duplication and no loss. -/
theorem claim9_concurrent_producers_no_loss {T : Type} (vss : List (List T))
    (script : List Nat) (s' : CState T)
    (hrun : runScript (cinit vss) script = some s') (hdone : AllDone s') :
    (popN s'.buf.abs.length s'.buf).1 = s'.buf.abs.reduceOption.map some ∧
    (s'.buf.abs.reduceOption : Multiset T)
      = ((vss.flatten : List T) : Multiset T) ∧
    s'.buf.abs.reduceOption.length = vss.flatten.length := by
  have hcinv := runScript_inv script (cinit_inv vss) hrun
  have hInv := hcinv.allDone_Inv hdone
  have hacc := hcinv.allDone_acc hdone
  refine ⟨?_, hacc, ?_⟩
  · have hdrain := (popN_spec s'.buf.abs.length s'.buf hInv le_rfl).1
    rw [hdrain, List.take_length,
      reduceOption_map_some s'.buf.abs (abs_isSome s'.buf hInv)]
  · have hperm := Multiset.coe_eq_coe.mp hacc
    exact hperm.length_eq

theorem claim9_witness :
    (popN ((runScript (cinit ([[10, 11], [20]] : List (List Nat)))
        [0, 1, 0, 0, 1, 0, 1, 0, 0]).getD (cinit [])).buf.abs.length
      ((runScript (cinit ([[10, 11], [20]] : List (List Nat)))
        [0, 1, 0, 0, 1, 0, 1, 0, 0]).getD (cinit [])).buf).1
      = ((runScript (cinit ([[10, 11], [20]] : List (List Nat)))
        [0, 1, 0, 0, 1, 0, 1, 0, 0]).getD
          (cinit [])).buf.abs.reduceOption.map some ∧
    (((runScript (cinit ([[10, 11], [20]] : List (List Nat)))
        [0, 1, 0, 0, 1, 0, 1, 0, 0]).getD
          (cinit [])).buf.abs.reduceOption : Multiset Nat)
      = ((([[10, 11], [20]] : List (List Nat)).flatten : List Nat) :
          Multiset Nat) ∧
    ((runScript (cinit ([[10, 11], [20]] : List (List Nat)))
        [0, 1, 0, 0, 1, 0, 1, 0, 0]).getD
          (cinit [])).buf.abs.reduceOption.length
      = ([[10, 11], [20]] : List (List Nat)).flatten.length :=
  claim9_concurrent_producers_no_loss [[10, 11], [20]]
    [0, 1, 0, 0, 1, 0, 1, 0, 0]
    ((runScript (cinit ([[10, 11], [20]] : List (List Nat)))
        [0, 1, 0, 0, 1, 0, 1, 0, 0]).getD (cinit []))
    (by decide) (by decide)

end RipStruct

